import Mathlib

/-!
# Verification of the canopy k8s-node-tester genesis generator and cluster applier

This file shallowly embeds the identity/committee planner of the genesis
generator (`genesis-generator/main.go`) and the per-chain service creation of
the cluster applier (`k8s-applier/main.go`), and proves properties of the
embedded definitions.

Modelling conventions:
* Go `int` becomes `Int`; Go counts parsed from YAML are modelled as `Nat`
  (profiles declare non-negative populations).
* YAML maps (`chains`, profile catalogs) become association lists; the
  generator sorts chain names before use, which we model explicitly, and the
  remaining map iterations are either order-insensitive (sums, searches of
  success/failure) or noted where they are not.
* BLS12-381 key generation gives every base identity a fresh address whose
  only relevant property is global distinctness; we realise the address
  supply by the base identity's (unique) node id.  Expanded entries copy the
  base address, exactly as the Go code copies the `Address` field.
* Cryptographic material, file I/O, and the Kubernetes client are out of
  scope; the data that reaches them is modelled.
-/

/-- `CommitteeAssignment` from the generator: cross-chain committee
participation declared on a chain. -/
structure CommitteeAssignment where
  id : Int
  repeatedIdentityValidatorCount : Nat
  repeatedIdentityDelegatorCount : Nat
  validatorCount : Nat
  delegatorCount : Nat
deriving DecidableEq, Repr

/-- `ChainConfig` from the generator (fields that feed the planner and the
emitted `config.json`; amounts and runtime tuning knobs that no claim touches
are omitted). -/
structure ChainConfig where
  id : Int
  rootChain : Int
  validatorsCount : Nat
  fullNodesCount : Nat
  accountsCount : Nat
  delegatorsCount : Nat
  committees : List CommitteeAssignment
  sleepUntil : Int
deriving DecidableEq, Repr

/-- `AppConfig`: one named profile.  The YAML `chains` map is carried as an
association list from chain name to `ChainConfig`. -/
structure AppConfig where
  nodesCount : Int
  chains : List (String × ChainConfig)
deriving DecidableEq, Repr

/-- Node role, the `NodeType` string field of `NodeIdentity`. -/
inductive NodeType where
  | validator
  | delegator
  | fullnode
deriving DecidableEq, Repr

/-- `NodeIdentity` from the generator.  `address` stands for the hex BLS
address (see the modelling conventions); `expandingCommittees` is `none`
exactly when the Go `map[uint64]bool` field is `nil`. -/
structure NodeIdentity where
  id : Int
  chainId : Int
  rootChainId : Int
  rootChainNode : Option Int := none
  peerNode : Option Int := none
  address : Int
  nodeType : NodeType
  committees : List Int
  expandingCommittees : Option (List Int)
  isDelegate : Bool
  genesisChainId : Int
deriving DecidableEq, Repr

/-- Membership test in the (possibly nil) `ExpandingCommittees` set. -/
def expandingContains (ec : Option (List Int)) (c : Int) : Bool :=
  match ec with
  | none => false
  | some l => l.contains c

/-- `true` on `Except.ok`, mirroring `err == nil` in Go. -/
def exceptOk {ε α : Type} : Except ε α → Bool
  | .ok _ => true
  | .error _ => false

/-! ## Profile validation (`validateConfig`, `validateCommitteeAssignments`) -/

/-- The per-chain entry tally of `validateConfig`: validators + full nodes +
repeated-identity expansions + committee-only validators (delegator fields are
never read). -/
def chainEntryTally (c : ChainConfig) : Nat :=
  c.validatorsCount + c.fullNodesCount
    + c.committees.foldl (fun a ca => a + ca.repeatedIdentityValidatorCount) 0
    + c.committees.foldl (fun a ca => a + ca.validatorCount) 0

/-- `validateConfig`: the total entry tally over all chains must equal the
declared `nodes.count`. -/
def validateConfig (cfg : AppConfig) : Except String Unit :=
  let totalNodes := cfg.chains.foldl (fun acc p => acc + chainEntryTally p.2) 0
  if (totalNodes : Int) ≠ cfg.nodesCount then
    .error ("node count mismatch: total entries (" ++ toString totalNodes
      ++ ") does not equal nodes.count (" ++ toString cfg.nodesCount ++ ")")
  else
    .ok ()

/-- Insertion step of an ascending integer sort (`sort.Ints`). -/
def insertIntAsc (x : Int) : List Int → List Int
  | [] => [x]
  | y :: ys => if x ≤ y then x :: y :: ys else y :: insertIntAsc x ys

/-- Ascending integer sort (`sort.Ints`; agrees with any comparison sort on
integer lists). -/
def sortIntAsc : List Int → List Int
  | [] => []
  | x :: xs => insertIntAsc x (sortIntAsc xs)

/-- `getChainIDs`: all chain ids, sorted ascending (used in error output). -/
def getChainIDs (cfg : AppConfig) : List Int :=
  sortIntAsc (cfg.chains.map (fun p => p.2.id))

/-- Total validator count over root chains (chains with `id == rootChain`). -/
def rootChainValidatorTotal (cfg : AppConfig) : Nat :=
  cfg.chains.foldl
    (fun acc p => if p.2.id = p.2.rootChain then acc + p.2.validatorsCount else acc) 0

/-- Per-committee checks of `validateCommitteeAssignments`: the committee id
must be a chain id and the repeated-identity counts must not exceed the
available populations.  Returns the first error, if any. -/
def committeeCheckErr (cfg : AppConfig) (p : String × ChainConfig) : Option String :=
  p.2.committees.findSome? (fun ca =>
    if ¬ cfg.chains.any (fun q => q.2.id = ca.id) then
      some ("chain " ++ p.1 ++ ": committee ID " ++ toString ca.id
        ++ " does not match any chain ID (available chain IDs: ["
        ++ String.intercalate " " ((getChainIDs cfg).map toString) ++ "])")
    else if ca.repeatedIdentityValidatorCount > p.2.validatorsCount then
      some ("chain " ++ p.1 ++ ": committee " ++ toString ca.id
        ++ " repeatedIdentityValidatorCount (" ++ toString ca.repeatedIdentityValidatorCount
        ++ ") exceeds total validators (" ++ toString p.2.validatorsCount ++ ")")
    else if ca.repeatedIdentityDelegatorCount > p.2.delegatorsCount then
      some ("chain " ++ p.1 ++ ": committee " ++ toString ca.id
        ++ " repeatedIdentityDelegatorCount (" ++ toString ca.repeatedIdentityDelegatorCount
        ++ ") exceeds total delegators (" ++ toString p.2.delegatorsCount ++ ")")
    else none)

/-- Nested-chain check of `validateCommitteeAssignments`: a nested chain's
root chain must exist and its first committee assignment targeting the nested
chain must provide at least one validator (repeated-identity or
committee-only). -/
def nestedChainErr (cfg : AppConfig) (p : String × ChainConfig) : Option String :=
  if p.2.id = p.2.rootChain then none
  else
    match cfg.chains.find? (fun q => q.2.id = p.2.rootChain) with
    | none =>
        some ("chain " ++ p.1 ++ ": rootChain " ++ toString p.2.rootChain
          ++ " does not exist")
    | some rootP =>
        let counts :=
          match rootP.2.committees.find? (fun ca => ca.id = p.2.id) with
          | some ca => (ca.repeatedIdentityValidatorCount, ca.validatorCount)
          | none => (0, 0)
        if counts.1 + counts.2 = 0 then
          some ("nested chain " ++ p.1 ++ " (ID " ++ toString p.2.id
            ++ "): root chain must have at least one validator assigned to committee "
            ++ toString p.2.id
            ++ " (either via repeatedIdentityValidatorCount or validatorCount) for peerNode assignment")
        else none

/-- `validateCommitteeAssignments`: root-chain validator availability, then
the per-committee checks, then the nested-chain checks. -/
def validateCommitteeAssignments (cfg : AppConfig) : Except String Unit :=
  if rootChainValidatorTotal cfg = 0 then
    .error "no validators found on any root chain; at least one root chain must have validators for rootChainNode assignment"
  else
    match cfg.chains.findSome? (committeeCheckErr cfg) with
    | some e => .error e
    | none =>
        match cfg.chains.findSome? (nestedChainErr cfg) with
        | some e => .error e
        | none => .ok ()

/-! ## Genesis committee projection (`writeGenesisFromIdentities`) -/

/-- The committee list written for validator `v` into the genesis of chain
`chainID`, exactly as computed in `writeGenesisFromIdentities`. -/
def committeesForGenesis (chainID : Int) (v : NodeIdentity) : List Int :=
  let isNativeValidator := v.committees.head? = some chainID
  let genesisChainID := if v.genesisChainId = 0 then v.chainId else v.genesisChainId
  let isCommitteeOnlyValidator :=
    genesisChainID = chainID ∧ v.chainId ≠ chainID ∧ v.expandingCommittees = none
  if isNativeValidator then v.committees
  else if isCommitteeOnlyValidator then v.committees
  else [chainID]

/-- The three-case projection exactly as the specification words it (first
committee native → all committees; `genesisChainId` equals the emitting chain
while `chainId` differs and `expandingCommittees` is null → committees
unchanged; otherwise the one-element list of the emitting chain). -/
def committeesForGenesisSpec (chainID : Int) (v : NodeIdentity) : List Int :=
  if v.committees.head? = some chainID then v.committees
  else if v.genesisChainId = chainID ∧ v.chainId ≠ chainID ∧ v.expandingCommittees = none then
    v.committees
  else [chainID]

/-! ## `config.json` template (`createTemplateConfig`) -/

/-- The slice of the emitted node template relevant to the claims.  `now` is
the wall-clock time at emission; the Go function never reads the clock, and
`sleepUntil` is `uint64(sleepUntilEpoch)` (two's-complement cast modelled by
`emod 2^64`). -/
structure TemplateConfig where
  chainId : Int
  sleepUntil : Int
  proposeVoteTimeoutMS : Int
deriving DecidableEq, Repr

/-- `createTemplateConfig`, restricted to the fields above. -/
def createTemplateConfig (chainID rootChainID sleepUntilEpoch : Int) (now : Int) : TemplateConfig :=
  { chainId := chainID
    sleepUntil := sleepUntilEpoch.emod (2 ^ 64)
    proposeVoteTimeoutMS := if chainID ≠ rootChainID then 3000 else 4000 }

/-! ## Pass 1: per-chain identity synthesis (`generateChainIdentities`) -/

/-- Build identities with ids counting up from `idx` (one per list element),
mirroring `startIdx + i` loops. -/
def buildUp {α : Type} (mk : Int → α → NodeIdentity) : Int → List α → List NodeIdentity
  | _, [] => []
  | idx, a :: as => mk idx a :: buildUp mk (idx + 1) as

/-- Build identities with ids counting down from `idx`, mirroring
`startIdx - i` loops. -/
def buildDown {α : Type} (mk : Int → α → NodeIdentity) : Int → List α → List NodeIdentity
  | _, [] => []
  | idx, a :: as => mk idx a :: buildDown mk (idx - 1) as

/-- Additional (repeated-identity) committees of validator index `i`:
every committee assignment with `i < repeatedIdentityValidatorCount`
(and `i < validators.count`) contributes its id, in declaration order. -/
def validatorAssignments (c : ChainConfig) (i : Nat) : List Int :=
  c.committees.filterMap (fun ca =>
    if i < ca.repeatedIdentityValidatorCount ∧ i < c.validatorsCount then some ca.id else none)

/-- Additional (repeated-identity) committees of delegator index `i`. -/
def delegatorAssignments (c : ChainConfig) (i : Nat) : List Int :=
  c.committees.filterMap (fun ca =>
    if i < ca.repeatedIdentityDelegatorCount ∧ i < c.delegatorsCount then some ca.id else none)

/-- The `ExpandingCommittees` map built alongside the assignments: `nil` when
index `i` received no assignment, otherwise the assigned committees. -/
def mkExpanding (l : List Int) : Option (List Int) :=
  if l = [] then none else some l

/-- One regular validator or delegator identity (`addValidators` body).
The address is the fresh BLS address, realised by the node id. -/
def mkRegular (c : ChainConfig) (isDelegate : Bool) (assigns : Nat → List Int)
    (nodeID : Int) (i : Nat) : NodeIdentity :=
  { id := nodeID
    chainId := c.id
    rootChainId := c.rootChain
    address := nodeID
    nodeType := if isDelegate then .delegator else .validator
    committees := c.id :: assigns i
    expandingCommittees := mkExpanding (assigns i)
    isDelegate := isDelegate
    genesisChainId := c.id }

/-- Flattened target-committee list for committee-only entries: each
assignment contributes `count ca` copies of its committee id, in order. -/
def committeeOnlyTargets (count : CommitteeAssignment → Nat) (c : ChainConfig) : List Int :=
  c.committees.flatMap (fun ca => List.replicate (count ca) ca.id)

/-- One committee-only validator (`addCommitteeOnlyValidator`): committees is
only the target, `chainId` is the target committee, `genesisChainId` stays the
originating chain, no expanding set. -/
def mkCommitteeOnlyValidator (c : ChainConfig) (nodeID : Int) (target : Int) : NodeIdentity :=
  { id := nodeID
    chainId := target
    rootChainId := c.rootChain
    address := nodeID
    nodeType := .validator
    committees := [target]
    expandingCommittees := none
    isDelegate := false
    genesisChainId := c.id }

/-- One committee-only delegator (`addCommitteeOnlyDelegator`). -/
def mkCommitteeOnlyDelegator (c : ChainConfig) (nodeID : Int) (target : Int) : NodeIdentity :=
  { id := nodeID
    chainId := target
    rootChainId := c.rootChain
    address := nodeID
    nodeType := .delegator
    committees := [target]
    expandingCommittees := none
    isDelegate := true
    genesisChainId := c.id }

/-- One full node (`addFullNodes` body): no committees, not staked. -/
def mkFullNode (c : ChainConfig) (nodeID : Int) : NodeIdentity :=
  { id := nodeID
    chainId := c.id
    rootChainId := c.rootChain
    address := nodeID
    nodeType := .fullnode
    committees := []
    expandingCommittees := none
    isDelegate := false
    genesisChainId := c.id }

/-- Σ `validatorCount` over a chain's committee assignments. -/
def totalCommitteeOnlyValidators (c : ChainConfig) : Nat :=
  (c.committees.map (fun ca => ca.validatorCount)).sum

/-- Σ `delegatorCount` over a chain's committee assignments. -/
def totalCommitteeOnlyDelegators (c : ChainConfig) : Nat :=
  (c.committees.map (fun ca => ca.delegatorCount)).sum

/-- Insertion into a list sorted by ascending id. -/
def insertById (x : NodeIdentity) : List NodeIdentity → List NodeIdentity
  | [] => [x]
  | y :: ys => if x.id ≤ y.id then x :: y :: ys else y :: insertById x ys

/-- Sort identities by ascending id (`sort.Slice` on distinct ids). -/
def sortById : List NodeIdentity → List NodeIdentity
  | [] => []
  | x :: xs => insertById x (sortById xs)

/-- `generateChainIdentities`: regular validators from `startIdx`,
committee-only validators right after them, full nodes after those; regular
delegators from `delegStart` counting down, committee-only delegators after
them; finally sorted by id.  (Account synthesis feeds only `accounts.json`
and is not modelled.) -/
def generateChainIdentities (c : ChainConfig) (startIdx delegStart : Int) : List NodeIdentity :=
  sortById
    (buildUp (mkRegular c false (validatorAssignments c)) startIdx
        (List.range c.validatorsCount)
      ++ buildUp (mkCommitteeOnlyValidator c) (startIdx + c.validatorsCount)
        (committeeOnlyTargets (fun ca => ca.validatorCount) c)
      ++ buildDown (mkRegular c true (delegatorAssignments c)) delegStart
        (List.range c.delegatorsCount)
      ++ buildDown (mkCommitteeOnlyDelegator c) (delegStart - c.delegatorsCount)
        (committeeOnlyTargets (fun ca => ca.delegatorCount) c)
      ++ buildUp (fun nodeID _ => mkFullNode c nodeID)
        (startIdx + c.validatorsCount + totalCommitteeOnlyValidators c)
        (List.range c.fullNodesCount))

/-- Positive-id block width of a chain: validators + committee-only
validators + full nodes (the `currentIdx` increment in `main`). -/
def chainPosCount (c : ChainConfig) : Nat :=
  c.validatorsCount + totalCommitteeOnlyValidators c + c.fullNodesCount

/-- Negative-id block width of a chain: delegators + committee-only
delegators (the `currentDelegatorIdx` decrement in `main`). -/
def chainNegCount (c : ChainConfig) : Nat :=
  c.delegatorsCount + totalCommitteeOnlyDelegators c

/-- Lexicographic order on character lists by code point (the order Go's
`<` on strings induces, UTF-8 being code-point-order preserving). -/
def charListLt : List Char → List Char → Bool
  | [], [] => false
  | [], _ :: _ => true
  | _ :: _, [] => false
  | a :: as, b :: bs =>
    if a.val.toNat < b.val.toNat then true
    else if b.val.toNat < a.val.toNat then false
    else charListLt as bs

/-- Go string comparison `a < b`. -/
def strLt (a b : String) : Bool := charListLt a.data b.data

/-- Insertion step of the lexicographic chain-name sort (`sort.Strings`;
chain names are distinct YAML map keys, so any comparison sort agrees). -/
def insertChainByName (x : String × ChainConfig) :
    List (String × ChainConfig) → List (String × ChainConfig)
  | [] => [x]
  | y :: ys => if strLt y.1 x.1 then y :: insertChainByName x ys else x :: y :: ys

/-- Chain names are sorted lexicographically before index assignment. -/
def sortChains : List (String × ChainConfig) → List (String × ChainConfig)
  | [] => []
  | x :: xs => insertChainByName x (sortChains xs)

/-- Phase 1 of `main`: generate every chain's identities, threading the
positive and negative id cursors in sorted chain-name order. -/
def generateAll : List (String × ChainConfig) → Int → Int → List NodeIdentity
  | [], _, _ => []
  | p :: rest, posIdx, negIdx =>
    generateChainIdentities p.2 posIdx negIdx
      ++ generateAll rest (posIdx + chainPosCount p.2) (negIdx - chainNegCount p.2)

/-- All base identities of a profile, sorted by id (`allIdentities` in
`main`; positive ids start at 1, delegator ids at -1). -/
def allIdentities (cfg : AppConfig) : List NodeIdentity :=
  sortById (generateAll (sortChains cfg.chains) 1 (-1))

/-- `chainToRootChain`: map a chain id to its root chain id; missing ids give
the Go zero value 0.  (Deterministic whenever chain ids are unique.) -/
def chainToRootChain (cfg : AppConfig) (cid : Int) : Int :=
  match cfg.chains.find? (fun p => p.2.id = cid) with
  | some p => p.2.rootChain
  | none => 0

/-! ## Pass 2: cross-chain expansion -/

/-- One entry of the `expandedEntries` slice. -/
structure ExpandedEntry where
  identity : NodeIdentity
  originalID : Int
  originalAddr : Int
  isRootChain : Bool
deriving DecidableEq, Repr

/-- Pair every list element with its position, starting at `n` (the index of
`for i, committee := range identity.Committees`). -/
def withIndex {α : Type} : Nat → List α → List (Nat × α)
  | _, [] => []
  | n, a :: as => (n, a) :: withIndex (n + 1) as

/-- The base (unexpanded) entry for an identity. -/
def baseEntry (ctr : Int → Int) (x : NodeIdentity) : ExpandedEntry :=
  { identity := x
    originalID := x.id
    originalAddr := x.address
    isRootChain := x.chainId = ctr x.chainId }

/-- The loop over a multi-committee identity's indexed committees: index 0
keeps the base entry; later indices produce an expanded copy (fresh id,
`chainId`/`genesisChainId` retargeted) only for expanding committees.
`up`/`down` are `nextExpandedID`/`nextExpandedDelegatorID`. -/
def expandIdentityLoop (ctr : Int → Int) (x : NodeIdentity) :
    List (Nat × Int) → Int → Int → List ExpandedEntry × Int × Int
  | [], up, down => ([], up, down)
  | (i, committee) :: rest, up, down =>
    if i = 0 then
      let r := expandIdentityLoop ctr x rest up down
      (baseEntry ctr x :: r.1, r.2)
    else if expandingContains x.expandingCommittees committee then
      let newId : Int := if x.isDelegate then down else up
      let expanded := { x with
        id := newId
        chainId := committee
        genesisChainId := committee }
      let up' := if x.isDelegate then up else up + 1
      let down' := if x.isDelegate then down - 1 else down
      let r := expandIdentityLoop ctr x rest up' down'
      ({ identity := expanded
         originalID := x.id
         originalAddr := x.address
         isRootChain := committee = ctr committee } :: r.1, r.2)
    else
      expandIdentityLoop ctr x rest up down

/-- Expansion of a single identity: full nodes and single-committee
identities appear once; multi-committee identities run the loop above. -/
def expandStep (ctr : Int → Int) (x : NodeIdentity) (up down : Int) :
    List ExpandedEntry × Int × Int :=
  if x.nodeType = .fullnode ∨ x.committees.length = 1 then
    ([baseEntry ctr x], up, down)
  else
    expandIdentityLoop ctr x (withIndex 0 x.committees) up down

/-- Expansion of the whole identity list, threading the two id counters. -/
def expandAll (ctr : Int → Int) : List NodeIdentity → Int → Int → List ExpandedEntry × Int × Int
  | [], up, down => ([], up, down)
  | x :: rest, up, down =>
    let r1 := expandStep ctr x up down
    let r2 := expandAll ctr rest r1.2.1 r1.2.2
    (r1.1 ++ r2.1, r2.2)

/-- `baseNodeCount`: non-delegator base identities (validators, committee-only
validators, full nodes). -/
def baseNodeCount (cfg : AppConfig) : Nat :=
  ((allIdentities cfg).filter (fun x => ¬ x.isDelegate)).length

/-- The lowest (most negative) delegator id among the base identities,
starting the scan from 0 exactly as the Go loop does. -/
def lowestDelegatorID (l : List NodeIdentity) : Int :=
  l.foldl (fun m x => if x.isDelegate ∧ x.id < m then x.id else m) 0

/-- The full `expandedEntries` slice of a profile: expansion of the sorted
base identities with `nextExpandedID = baseNodeCount + 1` and
`nextExpandedDelegatorID` one below the lowest existing delegator id. -/
def expandedEntries (cfg : AppConfig) : List ExpandedEntry :=
  (expandAll (chainToRootChain cfg) (allIdentities cfg)
    ((baseNodeCount cfg : Int) + 1)
    (lowestDelegatorID (allIdentities cfg) - 1)).1

/-! ## Pass 3: pointer assignment (`rootChainNode`, `peerNode`) -/

/-- `rootChainNodeIDs`: ids of all expanded validator entries on root chains. -/
def rootChainNodeIDs (cfg : AppConfig) : List Int :=
  (expandedEntries cfg).filterMap (fun e =>
    if e.isRootChain ∧ e.identity.nodeType = .validator then some e.identity.id else none)

/-- `addressToRootChainID`: address → id of a root-chain entry.  The Go map is
filled by iterating `expandedEntries`, so the last root-chain entry with a
given address wins. -/
def addressToRootChainID (cfg : AppConfig) (addr : Int) : Option Int :=
  (((expandedEntries cfg).filter (fun e => e.isRootChain)).reverse.find?
    (fun e => e.identity.address = addr)).map (fun e => e.identity.id)

/-- `GenesisChainID` with the Go zero-value fallback to `ChainID`. -/
def normGenesisChainId (x : NodeIdentity) : Int :=
  if x.genesisChainId = 0 then x.chainId else x.genesisChainId

/-- `nestedChainPeerNodes[cid]`: validator entries on nested chain `cid`
whose address also has a root-chain identity (repeated identity). -/
def nestedChainPeerNodes (cfg : AppConfig) (cid : Int) : List Int :=
  (expandedEntries cfg).filterMap (fun e =>
    if e.identity.nodeType = .validator ∧ e.identity.isDelegate = false
        ∧ e.isRootChain = false ∧ (addressToRootChainID cfg e.originalAddr).isSome
        ∧ e.identity.chainId = cid then
      some e.identity.id
    else none)

/-- `committeeOnlyPeerNodes[cid]`: committee-only validator entries whose
`chainId` is `cid` (`GenesisChainID != ChainID` and no expanding set). -/
def committeeOnlyPeerNodes (cfg : AppConfig) (cid : Int) : List Int :=
  (expandedEntries cfg).filterMap (fun e =>
    if e.identity.nodeType = .validator ∧ e.identity.isDelegate = false
        ∧ normGenesisChainId e.identity ≠ e.identity.chainId
        ∧ e.identity.expandingCommittees = none
        ∧ e.identity.chainId = cid then
      some e.identity.id
    else none)

/-- Increment a counter map at one key (Go `m[k]++`; missing keys read 0, so
total zero-default functions model the maps exactly). -/
def bump (f : Int → Nat) (k : Int) : Int → Nat :=
  fun x => if x = k then f x + 1 else f x

/-- Pre-seeding of `rootChainNodeAssignments`: root-chain validators count
themselves; non-root validators with a root-chain identity count that entry. -/
def preseedRootCounts (cfg : AppConfig) : Int → Nat :=
  (expandedEntries cfg).foldl
    (fun f e =>
      if e.identity.isDelegate then f
      else if e.isRootChain ∧ e.identity.nodeType = .validator then bump f e.identity.id
      else
        match addressToRootChainID cfg e.originalAddr with
        | some rootID => if e.identity.nodeType = .validator then bump f rootID else f
        | none => f)
    (fun _ => 0)

/-- Pre-seeding of `peerNodeAssignments`: every validator that will
self-reference (root chain, repeated identity, or committee-only) counts
itself. -/
def preseedPeerCounts (cfg : AppConfig) : Int → Nat :=
  (expandedEntries cfg).foldl
    (fun f e =>
      if e.identity.isDelegate ∨ e.identity.nodeType ≠ .validator then f
      else if e.isRootChain then bump f e.identity.id
      else if (addressToRootChainID cfg e.originalAddr).isSome then bump f e.identity.id
      else if normGenesisChainId e.identity ≠ e.identity.chainId
          ∧ e.identity.expandingCommittees = none then
        bump f e.identity.id
      else f)
    (fun _ => 0)

/-- The selection loop shared by `findLeastAssignedRootNode`,
`findLeastAssignedRootChainPeerNode` and `findLeastAssignedPeerNode`: the
first element of the candidate list achieving the minimum count.  The Go code
indexes `l[0]` and panics on an empty list; the `[]` case below is that
unreachable branch. -/
def findLeastAssigned (counts : Int → Nat) : List Int → Int
  | [] => 0
  | h :: t => t.foldl (fun best x => if counts x < counts best then x else best) h

/-- Candidate list of `findLeastAssignedPeerNode`: repeated-identity peers
first, committee-only peers as fallback. -/
def peerCandidates (cfg : AppConfig) (cid : Int) : List Int :=
  let peerIDs := nestedChainPeerNodes cfg cid
  if peerIDs = [] then committeeOnlyPeerNodes cfg cid else peerIDs

/-- Does this entry take the load-balanced `peerNode` branch (the calls into
`findLeastAssignedPeerNode`, i.e. `peerIDs[0]` indexing)? -/
def needsPeerPick (cfg : AppConfig) (e : ExpandedEntry) : Prop :=
  e.identity.isDelegate = false ∧
    ((e.identity.nodeType = .validator ∧ e.isRootChain = false
        ∧ addressToRootChainID cfg e.originalAddr = none
        ∧ ¬ (normGenesisChainId e.identity ≠ e.identity.chainId
              ∧ e.identity.expandingCommittees = none))
      ∨ (e.identity.nodeType = .fullnode ∧ e.isRootChain = false))

instance (cfg : AppConfig) (e : ExpandedEntry) : Decidable (needsPeerPick cfg e) := by
  unfold needsPeerPick; infer_instance

/-- The per-entry body of the second pass of Phase 3: assign `rootChainNode`
and `peerNode`, updating the two assignment counters, and emit the entry into
`ids.json` (delegators are skipped). -/
def assignLoop (cfg : AppConfig) :
    List ExpandedEntry → (Int → Nat) → (Int → Nat) → List NodeIdentity × (Int → Nat) × (Int → Nat)
  | [], rc, pc => ([], rc, pc)
  | e :: rest, rc, pc =>
    if e.identity.isDelegate then assignLoop cfg rest rc pc
    else
      let rootStep : Option Int × (Int → Nat) :=
        if e.isRootChain then (some e.identity.id, rc)
        else
          match addressToRootChainID cfg e.originalAddr with
          | some rootID => (some rootID, rc)
          | none =>
            let leastUsed := findLeastAssigned rc (rootChainNodeIDs cfg)
            (some leastUsed, bump rc leastUsed)
      let peerStep : Option Int × (Int → Nat) :=
        match e.identity.nodeType with
        | .validator =>
          if e.isRootChain then (some e.identity.id, pc)
          else if (addressToRootChainID cfg e.originalAddr).isSome then
            (some e.identity.id, pc)
          else if normGenesisChainId e.identity ≠ e.identity.chainId
              ∧ e.identity.expandingCommittees = none then
            (some e.identity.id, pc)
          else
            let leastUsed := findLeastAssigned pc (peerCandidates cfg e.identity.chainId)
            (some leastUsed, bump pc leastUsed)
        | .fullnode =>
          if e.isRootChain then
            let leastUsed := findLeastAssigned pc (rootChainNodeIDs cfg)
            (some leastUsed, bump pc leastUsed)
          else
            let leastUsed := findLeastAssigned pc (peerCandidates cfg e.identity.chainId)
            (some leastUsed, bump pc leastUsed)
        | .delegator => (none, pc)
      let r := assignLoop cfg rest rootStep.2 peerStep.2
      ({ e.identity with rootChainNode := rootStep.1, peerNode := peerStep.1 } :: r.1, r.2)

/-- The identities written into `ids.json` (the `keys` map values), in
iteration order. -/
def emittedIdentities (cfg : AppConfig) : List NodeIdentity :=
  (assignLoop cfg (expandedEntries cfg) (preseedRootCounts cfg) (preseedPeerCounts cfg)).1

/-- The final `rootChainNodeAssignments` counter after pointer assignment. -/
def finalRootCounts (cfg : AppConfig) : Int → Nat :=
  (assignLoop cfg (expandedEntries cfg) (preseedRootCounts cfg) (preseedPeerCounts cfg)).2.1

/-- The final `peerNodeAssignments` counter after pointer assignment. -/
def finalPeerCounts (cfg : AppConfig) : Int → Nat :=
  (assignLoop cfg (expandedEntries cfg) (preseedRootCounts cfg) (preseedPeerCounts cfg)).2.2

/-! ## Profile selection (`getConfig`) -/

/-- `strings.ToLower`, character by character (the catalog keys and requests
are ASCII, where Go and Unicode lowercasing agree). -/
def asciiToLower (s : String) : String :=
  String.mk (s.data.map Char.toLower)

/-- `getConfig`: the requested name is lowercased and looked up as an exact
key of the catalog map. -/
def getConfigByName (configs : List (String × AppConfig)) (name : String) :
    Except String AppConfig :=
  match configs.find? (fun p => p.1 = asciiToLower name) with
  | some p => .ok p.2
  | none =>
      .error ("unknown config '" ++ name ++ "'. Available configs: "
        ++ String.intercalate ", " (configs.map (fun p => p.1)))

/-! ## Cluster applier: per-chain LoadBalancer services -/

theorem foldl_add_eq_sum {α : Type} (f : α → Nat) (l : List α) (n : Nat) :
    l.foldl (fun a x => a + f x) n = n + (l.map f).sum := by
  induction l generalizing n with
  | nil => simp
  | cons x xs ih => simp [List.foldl_cons, ih, Nat.add_assoc]

/-! ## C3: the count validation tally -/

/-- The tally exactly as the specification words it: Σ over all chains of
`Validators.Count + FullNodes.Count + Σ repeatedIdentityValidatorCount +
Σ validatorCount`; no delegator field occurs. -/
def specTally (cfg : AppConfig) : Nat :=
  (cfg.chains.map (fun p =>
    p.2.validatorsCount + p.2.fullNodesCount
      + (p.2.committees.map (fun ca => ca.repeatedIdentityValidatorCount)).sum
      + (p.2.committees.map (fun ca => ca.validatorCount)).sum)).sum

theorem chainEntryTally_eq (c : ChainConfig) :
    chainEntryTally c
      = c.validatorsCount + c.fullNodesCount
        + (c.committees.map (fun ca => ca.repeatedIdentityValidatorCount)).sum
        + (c.committees.map (fun ca => ca.validatorCount)).sum := by
  unfold chainEntryTally
  rw [foldl_add_eq_sum, foldl_add_eq_sum]
  simp

theorem validateConfig_total (cfg : AppConfig) :
    cfg.chains.foldl (fun acc p => acc + chainEntryTally p.2) 0 = specTally cfg := by
  unfold specTally
  rw [foldl_add_eq_sum]
  simp [chainEntryTally_eq]

/-- C3: `validateConfig` succeeds iff the spec tally (which reads no delegator
count) equals `nodes.count`, and any failure carries exactly the
`total entries (N) does not equal nodes.count (M)` message. -/
theorem count_validation_iff_tally (cfg : AppConfig) :
    (validateConfig cfg = .ok () ↔ (specTally cfg : Int) = cfg.nodesCount)
      ∧ (validateConfig cfg = .ok ()
          ∨ validateConfig cfg
              = .error ("node count mismatch: total entries (" ++ toString (specTally cfg)
                  ++ ") does not equal nodes.count (" ++ toString cfg.nodesCount ++ ")")) := by
  unfold validateConfig
  rw [validateConfig_total]
  by_cases h : (specTally cfg : Int) = cfg.nodesCount <;> simp [h]

/-! ## C2: the three-case genesis committee projection -/

/-- C2: for any emitting chain with a nonzero id (the generator's chain ids;
0 is the Go zero value used as the `GenesisChainID` "unset" sentinel), the
emitted committee list is exactly the specification's three-case projection. -/
theorem genesis_committees_three_cases (chainID : Int) (v : NodeIdentity)
    (hchain : chainID ≠ 0) :
    committeesForGenesis chainID v = committeesForGenesisSpec chainID v := by
  unfold committeesForGenesis committeesForGenesisSpec
  by_cases hg : v.genesisChainId = 0
  · simp only [hg, if_pos rfl]
    by_cases hn : v.committees.head? = some chainID
    · simp [hn]
    · have h1 : ¬ (v.chainId = chainID ∧ v.chainId ≠ chainID ∧ v.expandingCommittees = none) := by
        rintro ⟨a, b, -⟩; exact b a
      have h2 : ¬ ((0 : Int) = chainID ∧ v.chainId ≠ chainID ∧ v.expandingCommittees = none) := by
        rintro ⟨a, -, -⟩; exact hchain a.symm
      simp [hn, h1, hg, h2]
  · simp [hg]

/-- Witness for C2 at a concrete committee-only validator record. -/
theorem genesis_committees_three_cases_witness :
    (1 : Int) ≠ 0
      ∧ committeesForGenesis 1
            { id := 4, chainId := 2, rootChainId := 1, address := 4,
              nodeType := .validator, committees := [2], expandingCommittees := none,
              isDelegate := false, genesisChainId := 1 }
          = committeesForGenesisSpec 1
            { id := 4, chainId := 2, rootChainId := 1, address := 4,
              nodeType := .validator, committees := [2], expandingCommittees := none,
              isDelegate := false, genesisChainId := 1 } :=
  ⟨by decide, genesis_committees_three_cases 1 _ (by decide)⟩

/-! ## C7: `sleepUntil` in the emitted `config.json` -/

/-- C7 (code bug): the generator copies the configured `sleepUntil` value
verbatim (`uint64(sleepUntilEpoch)`) into `config.json`; it never reads the
clock, so for the documented "seconds to add to current time" input 60 the
emitted value is 60, not `now + 60`.  Evaluated here at emission time
1734567890. -/
theorem sleepUntil_ignores_clock :
    (createTemplateConfig 1 1 60 1734567890).sleepUntil = 60
      ∧ (createTemplateConfig 1 1 60 1734567890).sleepUntil ≠ 1734567890 + 60
      ∧ (∀ now : Int, createTemplateConfig 1 1 60 now = createTemplateConfig 1 1 60 1734567890) := by
  refine ⟨by decide, by decide, fun now => rfl⟩

/-! ## C9: one LoadBalancer service per discovered chain id -/

/-- A profile catalog whose single key is upper-case. -/
def upperCatalog : List (String × AppConfig) :=
  [("DEFAULT", { nodesCount := 0, chains := [] })]

/-- C10 counterexample: the requested name "Default" matches the catalog key
"DEFAULT" up to ASCII case, yet `getConfig` fails, because only the request is
lowercased before an exact map lookup. -/
theorem selection_not_case_insensitive :
    asciiToLower "Default" = asciiToLower "DEFAULT"
      ∧ exceptOk (getConfigByName upperCatalog "Default") = false := by
  decide

/-- C10 amended: the lowercased request is matched exactly against catalog
keys, so selection is case-insensitive precisely for catalogs whose keys are
already lowercase. -/
theorem selection_lowercases_request (configs : List (String × AppConfig)) (name : String)
    (hkeys : ∀ p ∈ configs, asciiToLower p.1 = p.1) :
    exceptOk (getConfigByName configs name) = true
      ↔ ∃ p ∈ configs, asciiToLower p.1 = asciiToLower name := by
  unfold getConfigByName
  cases hfind : configs.find? (fun p => p.1 = asciiToLower name) with
  | some p =>
    simp only [exceptOk]
    constructor
    · intro _
      refine ⟨p, List.mem_of_find?_eq_some hfind, ?_⟩
      have hp : p.1 = asciiToLower name := by
        have := List.find?_some hfind
        simpa using this
      rw [hkeys p (List.mem_of_find?_eq_some hfind), hp]
    · intro _; trivial
  | none =>
    simp only [exceptOk]
    constructor
    · intro h; exact absurd h (by simp)
    · rintro ⟨p, hmem, hlow⟩
      have := List.find?_eq_none.mp hfind p hmem
      simp only [decide_eq_true_eq] at this
      exact absurd ((hkeys p hmem).symm.trans hlow) this

/-- A lowercase catalog for the C10 witness. -/
def lowerCatalog : List (String × AppConfig) :=
  [("default", { nodesCount := 0, chains := [] })]

/-- Witness for C10 amended: a lowercase catalog is selected
case-insensitively ("DEFAULT" finds the "default" profile). -/
theorem selection_lowercases_request_witness :
    (∀ p ∈ lowerCatalog, asciiToLower p.1 = p.1)
      ∧ (exceptOk (getConfigByName lowerCatalog "DEFAULT") = true
          ↔ ∃ p ∈ lowerCatalog, asciiToLower p.1 = asciiToLower "DEFAULT") :=
  ⟨by decide, selection_lowercases_request lowerCatalog "DEFAULT" (by decide)⟩

/-! ## Test-profile builders (shared by the concrete counterexamples) -/

/-- Build a `ChainConfig` (accounts and sleep data zeroed; the planner claims
do not read them). -/
def chainC (i r : Int) (v f d : Nat) (cas : List CommitteeAssignment) : ChainConfig :=
  { id := i, rootChain := r, validatorsCount := v, fullNodesCount := f,
    accountsCount := 0, delegatorsCount := d, committees := cas, sleepUntil := 0 }

/-- Build a `CommitteeAssignment` with the two validator counts. -/
def caC (i : Int) (rep val : Nat) : CommitteeAssignment :=
  { id := i, repeatedIdentityValidatorCount := rep, repeatedIdentityDelegatorCount := 0,
    validatorCount := val, delegatorCount := 0 }

/-! ## C8: chain-id uniqueness is not validated -/

/-- A profile in which two distinct chains declare the same chain id 1. -/
def duplicateIdProfile : AppConfig :=
  { nodesCount := 2
    chains := [("chain_a", chainC 1 1 1 0 0 []), ("chain_b", chainC 1 1 1 0 0 [])] }

/-- C8 counterexample: the profile above has two distinct chains with the same
`ChainConfig.id`, yet both validation passes accept it, so the generator does
not reject it. -/
theorem duplicate_chain_ids_accepted :
    duplicateIdProfile.chains.map (fun p => p.2.id) = [1, 1]
      ∧ duplicateIdProfile.chains.map (fun p => p.1) = ["chain_a", "chain_b"]
      ∧ "chain_a" ≠ "chain_b"
      ∧ exceptOk (validateConfig duplicateIdProfile) = true
      ∧ exceptOk (validateCommitteeAssignments duplicateIdProfile) = true := by
  decide

/-- C8 amended: the loader/validator enforces no chain-id uniqueness: there
are profiles in which two distinct chains declare the same `ChainConfig.id`
and both `validateConfig` and `validateCommitteeAssignments` succeed. -/
theorem chain_id_uniqueness_not_enforced :
    ∃ (cfg : AppConfig) (n₁ n₂ : String) (c₁ c₂ : ChainConfig),
      cfg.chains = [(n₁, c₁), (n₂, c₂)] ∧ n₁ ≠ n₂ ∧ c₁.id = c₂.id
        ∧ exceptOk (validateConfig cfg) = true
        ∧ exceptOk (validateCommitteeAssignments cfg) = true := by
  refine ⟨duplicateIdProfile, "chain_a", "chain_b", _, _, rfl, ?_, ?_, ?_, ?_⟩ <;> decide

/-! ## C5: load-balanced selection and the pre-seeded counters -/

theorem foldl_least_spec (counts : Int → Nat) (t : List Int) (b : Int) :
    (t.foldl (fun best x => if counts x < counts best then x else best) b = b
        ∨ t.foldl (fun best x => if counts x < counts best then x else best) b ∈ t)
      ∧ counts (t.foldl (fun best x => if counts x < counts best then x else best) b) ≤ counts b
      ∧ ∀ x ∈ t,
          counts (t.foldl (fun best x => if counts x < counts best then x else best) b)
            ≤ counts x := by
  induction t generalizing b with
  | nil => simp
  | cons x xs ih =>
    simp only [List.foldl_cons]
    by_cases hx : counts x < counts b
    · rw [if_pos hx]
      obtain ⟨hmem, hle, hall⟩ := ih x
      refine ⟨?_, ?_, ?_⟩
      · rcases hmem with h | h
        · exact Or.inr (by simp [h])
        · exact Or.inr (by simp [h])
      · exact le_trans hle (le_of_lt hx)
      · intro y hy
        rcases List.mem_cons.mp hy with rfl | hy'
        · exact hle
        · exact hall y hy'
    · rw [if_neg hx]
      obtain ⟨hmem, hle, hall⟩ := ih b
      refine ⟨?_, hle, ?_⟩
      · rcases hmem with h | h
        · exact Or.inl h
        · exact Or.inr (by simp [h])
      · intro y hy
        rcases List.mem_cons.mp hy with rfl | hy'
        · exact le_trans hle (Nat.le_of_not_lt hx)
        · exact hall y hy'

/-- C5 amended, part 1: every load-balanced pick (`findLeastAssignedRootNode`,
`findLeastAssignedRootChainPeerNode`, `findLeastAssignedPeerNode` all run this
selection) returns an eligible target whose current assignment count is
minimal, with ties broken deterministically by list position. -/
theorem least_assigned_pick_minimal (counts : Int → Nat) (l : List Int) (h : l ≠ []) :
    findLeastAssigned counts l ∈ l
      ∧ ∀ x ∈ l, counts (findLeastAssigned counts l) ≤ counts x := by
  cases l with
  | nil => exact absurd rfl h
  | cons b t =>
    obtain ⟨hmem, hle, hall⟩ := foldl_least_spec counts t b
    unfold findLeastAssigned
    refine ⟨?_, ?_⟩
    · rcases hmem with h' | h'
      · simp [h']
      · exact List.mem_cons_of_mem b h'
    · intro x hx
      rcases List.mem_cons.mp hx with rfl | hx'
      · exact hle
      · exact hall x hx'

/-- The C5 counterexample profile: one root chain whose first validator
repeats its identity into two nested chains, pre-seeding its counter to 3
while the second root validator stays at 1. -/
def preseedImbalanceProfile : AppConfig :=
  { nodesCount := 4
    chains :=
      [("chain_1", chainC 1 1 2 0 0 [caC 2 1 0, caC 3 1 0]),
        ("chain_2", chainC 2 1 0 0 0 []),
        ("chain_3", chainC 3 1 0 0 0 [])] }

/-- C5 counterexample: on a profile accepted by both validation passes, the
final `rootChainNode` assignment counters of the two eligible root-chain
targets are 3 and 1, so the maximum minus the minimum is 2 > 1. -/
theorem preseeded_counters_unbalanced :
    exceptOk (validateConfig preseedImbalanceProfile) = true
      ∧ exceptOk (validateCommitteeAssignments preseedImbalanceProfile) = true
      ∧ rootChainNodeIDs preseedImbalanceProfile = [1, 2]
      ∧ finalRootCounts preseedImbalanceProfile 1 = 3
      ∧ finalRootCounts preseedImbalanceProfile 2 = 1 := by
  decide

/-- Witness for C5 amended, applied to the counterexample profile's own final
state: the pick over its eligible root targets lands on the least-assigned
node 2. -/
theorem least_assigned_pick_minimal_witness :
    rootChainNodeIDs preseedImbalanceProfile ≠ []
      ∧ (findLeastAssigned (finalRootCounts preseedImbalanceProfile)
            (rootChainNodeIDs preseedImbalanceProfile)
          ∈ rootChainNodeIDs preseedImbalanceProfile
        ∧ ∀ x ∈ rootChainNodeIDs preseedImbalanceProfile,
            finalRootCounts preseedImbalanceProfile
                (findLeastAssigned (finalRootCounts preseedImbalanceProfile)
                  (rootChainNodeIDs preseedImbalanceProfile))
              ≤ finalRootCounts preseedImbalanceProfile x) :=
  ⟨by decide,
    least_assigned_pick_minimal (finalRootCounts preseedImbalanceProfile)
      (rootChainNodeIDs preseedImbalanceProfile) (by decide)⟩

/-! ## C1 / C6 counterexample profiles -/

/-- The C1 counterexample profile: two root chains (1 and 2) and a nested
chain 3 rooted at 1 with one native validator. -/
def multiRootProfile : AppConfig :=
  { nodesCount := 4
    chains :=
      [("chain_1", chainC 1 1 1 0 0 [caC 3 1 0]),
        ("chain_2", chainC 2 2 1 0 0 []),
        ("chain_3", chainC 3 1 1 0 0 [])] }

/-- C1 counterexample: the profile above passes both validation passes, yet
the native validator of nested chain 3 (whose root chain is 1) receives
`rootChainNode = some 2`, and the only emitted entry with id 2 lives on chain
2 — not on chain 3's root chain 1 — so the pointer crosses root chains. -/
theorem rootChainNode_crosses_root_chains :
    exceptOk (validateConfig multiRootProfile) = true
      ∧ exceptOk (validateCommitteeAssignments multiRootProfile) = true
      ∧ chainToRootChain multiRootProfile 3 = 1
      ∧ (∃ v ∈ emittedIdentities multiRootProfile,
          v.nodeType = .validator ∧ v.chainId = 3 ∧ v.rootChainNode = some 2)
      ∧ (∀ w ∈ emittedIdentities multiRootProfile, w.id = 2 → w.chainId = 2) := by
  decide

/-- The C6 counterexample profile: chain 3's `rootChain` is chain 2, which is
itself nested under chain 1 (a two-deep nesting the validator accepts). -/
def grandchildProfile : AppConfig :=
  { nodesCount := 5
    chains :=
      [("chain_1", chainC 1 1 1 0 0 [caC 2 1 0]),
        ("chain_2", chainC 2 1 1 0 0 [caC 3 1 0]),
        ("chain_3", chainC 3 2 1 0 0 [])] }

/-- C6 counterexample: the profile above passes both validation passes, yet a
validator entry of chain 3 takes the load-balanced `peerNode` branch while
both its candidate lists (`nestedChainPeerNodes[3]` and the committee-only
fallback) are empty — the `peerIDs[0]` access Go would perform is reached
with an empty slice. -/
theorem peer_candidates_empty_after_validation :
    exceptOk (validateConfig grandchildProfile) = true
      ∧ exceptOk (validateCommitteeAssignments grandchildProfile) = true
      ∧ (∃ e ∈ expandedEntries grandchildProfile,
          needsPeerPick grandchildProfile e
            ∧ e.identity.chainId = 3
            ∧ peerCandidates grandchildProfile e.identity.chainId = []) := by
  decide

/-! ## C4: global id uniqueness — range helpers -/

/-- `[a, a+1, …, a+k-1]`. -/
def posRange (a : Int) : Nat → List Int
  | 0 => []
  | n + 1 => a :: posRange (a + 1) n

/-- `[a, a-1, …, a-k+1]`. -/
def negRange (a : Int) : Nat → List Int
  | 0 => []
  | n + 1 => a :: negRange (a - 1) n

theorem mem_posRange (x a : Int) (k : Nat) : x ∈ posRange a k ↔ a ≤ x ∧ x < a + k := by
  induction k generalizing a with
  | zero => simp [posRange]
  | succ n ih =>
    simp only [posRange, List.mem_cons, ih]
    constructor
    · rintro (rfl | ⟨h1, h2⟩) <;> push_cast <;> omega
    · rintro ⟨h1, h2⟩
      by_cases hx : x = a
      · exact Or.inl hx
      · right; push_cast at h2 ⊢; omega

theorem mem_negRange (x a : Int) (k : Nat) : x ∈ negRange a k ↔ a - k < x ∧ x ≤ a := by
  induction k generalizing a with
  | zero => simp [negRange]
  | succ n ih =>
    simp only [negRange, List.mem_cons, ih]
    constructor
    · rintro (rfl | ⟨h1, h2⟩) <;> push_cast at * <;> omega
    · rintro ⟨h1, h2⟩
      by_cases hx : x = a
      · exact Or.inl hx
      · right; push_cast at h1 ⊢; omega

theorem nodup_posRange (a : Int) (k : Nat) : (posRange a k).Nodup := by
  induction k generalizing a with
  | zero => simp [posRange]
  | succ n ih =>
    simp only [posRange, List.nodup_cons]
    exact ⟨fun h => by have := (mem_posRange a (a + 1) n).mp h; omega, ih (a + 1)⟩

theorem nodup_negRange (a : Int) (k : Nat) : (negRange a k).Nodup := by
  induction k generalizing a with
  | zero => simp [negRange]
  | succ n ih =>
    simp only [negRange, List.nodup_cons]
    exact ⟨fun h => by have := (mem_negRange a (a - 1) n).mp h; omega, ih (a - 1)⟩

theorem posRange_add (a : Int) (m k : Nat) :
    posRange a (m + k) = posRange a m ++ posRange (a + m) k := by
  induction m generalizing a with
  | zero => simp [posRange]
  | succ n ih =>
    have h1 : n + 1 + k = (n + k) + 1 := by omega
    rw [h1]
    simp only [posRange, ih (a + 1), List.cons_append]
    have h2 : a + 1 + (n : Int) = a + ((n : Nat) + 1 : Nat) := by push_cast; ring
    rw [h2]

theorem negRange_add (a : Int) (m k : Nat) :
    negRange a (m + k) = negRange a m ++ negRange (a - m) k := by
  induction m generalizing a with
  | zero => simp [negRange]
  | succ n ih =>
    have h1 : n + 1 + k = (n + k) + 1 := by omega
    rw [h1]
    simp only [negRange, ih (a - 1), List.cons_append]
    have h2 : a - 1 - (n : Int) = a - ((n : Nat) + 1 : Nat) := by push_cast; ring
    rw [h2]

/-! ### Multiset of ids -/

/-- The multiset of ids of an identity list. -/
def idsOf (l : List NodeIdentity) : Multiset Int :=
  (l.map (fun x => x.id) : List Int)

theorem idsOf_append (l₁ l₂ : List NodeIdentity) :
    idsOf (l₁ ++ l₂) = idsOf l₁ + idsOf l₂ := by
  simp [idsOf]

theorem insertById_perm (x : NodeIdentity) (l : List NodeIdentity) :
    List.Perm (insertById x l) (x :: l) := by
  induction l with
  | nil => simp [insertById]
  | cons y ys ih =>
    unfold insertById
    by_cases h : x.id ≤ y.id
    · rw [if_pos h]
    · rw [if_neg h]
      exact List.Perm.trans (ih.cons y) (List.Perm.swap x y ys)

theorem sortById_perm (l : List NodeIdentity) : List.Perm (sortById l) l := by
  induction l with
  | nil => simp [sortById]
  | cons x xs ih =>
    unfold sortById
    exact List.Perm.trans (insertById_perm x (sortById xs)) (ih.cons x)

theorem idsOf_sortById (l : List NodeIdentity) : idsOf (sortById l) = idsOf l :=
  Multiset.coe_eq_coe.mpr ((sortById_perm l).map _)

theorem buildUp_ids {α : Type} (mk : Int → α → NodeIdentity)
    (hmk : ∀ i a, (mk i a).id = i) (l : List α) (idx : Int) :
    (buildUp mk idx l).map (fun x => x.id) = posRange idx l.length := by
  induction l generalizing idx with
  | nil => simp [buildUp, posRange]
  | cons a as ih => simp [buildUp, posRange, hmk, ih]

theorem buildDown_ids {α : Type} (mk : Int → α → NodeIdentity)
    (hmk : ∀ i a, (mk i a).id = i) (l : List α) (idx : Int) :
    (buildDown mk idx l).map (fun x => x.id) = negRange idx l.length := by
  induction l generalizing idx with
  | nil => simp [buildDown, negRange]
  | cons a as ih => simp [buildDown, negRange, hmk, ih]

theorem buildUp_forall {α : Type} (mk : Int → α → NodeIdentity)
    (P : NodeIdentity → Prop) (hmk : ∀ i a, P (mk i a)) (l : List α) (idx : Int) :
    ∀ x ∈ buildUp mk idx l, P x := by
  induction l generalizing idx with
  | nil => simp [buildUp]
  | cons a as ih =>
    intro x hx
    rcases List.mem_cons.mp hx with rfl | hx'
    · exact hmk idx a
    · exact ih (idx + 1) x hx'

theorem buildDown_forall {α : Type} (mk : Int → α → NodeIdentity)
    (P : NodeIdentity → Prop) (hmk : ∀ i a, P (mk i a)) (l : List α) (idx : Int) :
    ∀ x ∈ buildDown mk idx l, P x := by
  induction l generalizing idx with
  | nil => simp [buildDown]
  | cons a as ih =>
    intro x hx
    rcases List.mem_cons.mp hx with rfl | hx'
    · exact hmk idx a
    · exact ih (idx - 1) x hx'

theorem length_committeeOnlyTargets (count : CommitteeAssignment → Nat) (c : ChainConfig) :
    (committeeOnlyTargets count c).length = (c.committees.map count).sum := by
  unfold committeeOnlyTargets
  induction c.committees with
  | nil => simp
  | cons ca cas ih => simp [ih]

theorem idsOf_perm {l₁ l₂ : List NodeIdentity} (h : List.Perm l₁ l₂) : idsOf l₁ = idsOf l₂ :=
  Multiset.coe_eq_coe.mpr (h.map _)

theorem filter_buildUp_true {α : Type} (mk : Int → α → NodeIdentity) (p : NodeIdentity → Bool)
    (h : ∀ i a, p (mk i a) = true) (l : List α) (idx : Int) :
    (buildUp mk idx l).filter p = buildUp mk idx l :=
  List.filter_eq_self.mpr (fun a ha => by
    induction l generalizing idx with
    | nil => simp [buildUp] at ha
    | cons b bs ih =>
      rcases List.mem_cons.mp ha with rfl | ha'
      · exact h idx b
      · exact ih (idx + 1) ha')

theorem filter_buildUp_false {α : Type} (mk : Int → α → NodeIdentity) (p : NodeIdentity → Bool)
    (h : ∀ i a, p (mk i a) = false) (l : List α) (idx : Int) :
    (buildUp mk idx l).filter p = [] := by
  induction l generalizing idx with
  | nil => simp [buildUp]
  | cons b bs ih => simp [buildUp, h, ih]

theorem filter_buildDown_true {α : Type} (mk : Int → α → NodeIdentity) (p : NodeIdentity → Bool)
    (h : ∀ i a, p (mk i a) = true) (l : List α) (idx : Int) :
    (buildDown mk idx l).filter p = buildDown mk idx l :=
  List.filter_eq_self.mpr (fun a ha => by
    induction l generalizing idx with
    | nil => simp [buildDown] at ha
    | cons b bs ih =>
      rcases List.mem_cons.mp ha with rfl | ha'
      · exact h idx b
      · exact ih (idx - 1) ha')

theorem filter_buildDown_false {α : Type} (mk : Int → α → NodeIdentity) (p : NodeIdentity → Bool)
    (h : ∀ i a, p (mk i a) = false) (l : List α) (idx : Int) :
    (buildDown mk idx l).filter p = [] := by
  induction l generalizing idx with
  | nil => simp [buildDown]
  | cons b bs ih => simp [buildDown, h, ih]

/-- The non-delegator ids of one chain are exactly its positive block. -/
theorem generateChain_ids_pos (c : ChainConfig) (s d : Int) :
    idsOf ((generateChainIdentities c s d).filter (fun x => !x.isDelegate))
      = (posRange s (chainPosCount c) : List Int) := by
  unfold generateChainIdentities
  rw [idsOf_perm ((sortById_perm _).filter _)]
  rw [List.filter_append, List.filter_append, List.filter_append, List.filter_append]
  rw [filter_buildUp_true _ _ (fun i a => rfl), filter_buildUp_true _ _ (fun i a => rfl),
    filter_buildDown_false _ _ (fun i a => rfl), filter_buildDown_false _ _ (fun i a => rfl),
    filter_buildUp_true _ _ (fun i a => rfl)]
  simp only [List.nil_append, List.append_nil]
  unfold idsOf
  rw [List.map_append, List.map_append]
  rw [buildUp_ids _ (fun i a => rfl), buildUp_ids _ (fun i a => rfl),
    buildUp_ids _ (fun i a => rfl)]
  rw [List.length_range, List.length_range, length_committeeOnlyTargets]
  unfold chainPosCount
  rw [posRange_add, posRange_add]
  push_cast
  unfold totalCommitteeOnlyValidators
  ring_nf

/-- The delegator ids of one chain are exactly its negative block. -/
theorem generateChain_ids_neg (c : ChainConfig) (s d : Int) :
    idsOf ((generateChainIdentities c s d).filter (fun x => x.isDelegate))
      = (negRange d (chainNegCount c) : List Int) := by
  unfold generateChainIdentities
  rw [idsOf_perm ((sortById_perm _).filter _)]
  rw [List.filter_append, List.filter_append, List.filter_append, List.filter_append]
  rw [filter_buildUp_false _ _ (fun i a => rfl), filter_buildUp_false _ _ (fun i a => rfl),
    filter_buildDown_true _ _ (fun i a => rfl), filter_buildDown_true _ _ (fun i a => rfl),
    filter_buildUp_false _ _ (fun i a => rfl)]
  simp only [List.nil_append, List.append_nil]
  unfold idsOf
  rw [List.map_append]
  rw [buildDown_ids _ (fun i a => rfl), buildDown_ids _ (fun i a => rfl)]
  rw [List.length_range, length_committeeOnlyTargets]
  unfold chainNegCount
  rw [negRange_add]
  unfold totalCommitteeOnlyDelegators
  ring_nf

/-- Total positive-id block width of a chain list. -/
def sumPos (l : List (String × ChainConfig)) : Nat :=
  (l.map (fun p => chainPosCount p.2)).sum

/-- Total negative-id block width of a chain list. -/
def sumNeg (l : List (String × ChainConfig)) : Nat :=
  (l.map (fun p => chainNegCount p.2)).sum

theorem generateAll_ids_pos (l : List (String × ChainConfig)) (p n : Int) :
    idsOf ((generateAll l p n).filter (fun x => !x.isDelegate))
      = (posRange p (sumPos l) : List Int) := by
  induction l generalizing p n with
  | nil => simp [generateAll, sumPos, posRange, idsOf]
  | cons c rest ih =>
    show idsOf ((generateChainIdentities c.2 p n
        ++ generateAll rest (p + chainPosCount c.2) (n - chainNegCount c.2)).filter _) = _
    rw [List.filter_append, idsOf_append, generateChain_ids_pos, ih]
    have hs : sumPos (c :: rest) = chainPosCount c.2 + sumPos rest := by
      simp [sumPos]
    rw [hs, posRange_add]
    simp

theorem generateAll_ids_neg (l : List (String × ChainConfig)) (p n : Int) :
    idsOf ((generateAll l p n).filter (fun x => x.isDelegate))
      = (negRange n (sumNeg l) : List Int) := by
  induction l generalizing p n with
  | nil => simp [generateAll, sumNeg, negRange, idsOf]
  | cons c rest ih =>
    show idsOf ((generateChainIdentities c.2 p n
        ++ generateAll rest (p + chainPosCount c.2) (n - chainNegCount c.2)).filter _) = _
    rw [List.filter_append, idsOf_append, generateChain_ids_neg, ih]
    have hs : sumNeg (c :: rest) = chainNegCount c.2 + sumNeg rest := by
      simp [sumNeg]
    rw [hs, negRange_add]
    simp

theorem insertChainByName_perm (x : String × ChainConfig) (l : List (String × ChainConfig)) :
    List.Perm (insertChainByName x l) (x :: l) := by
  induction l with
  | nil => simp [insertChainByName]
  | cons y ys ih =>
    unfold insertChainByName
    by_cases h : strLt y.1 x.1
    · rw [if_pos h]
      exact List.Perm.trans (ih.cons y) (List.Perm.swap x y ys)
    · rw [if_neg h]

theorem sortChains_perm (l : List (String × ChainConfig)) : List.Perm (sortChains l) l := by
  induction l with
  | nil => simp [sortChains]
  | cons x xs ih =>
    unfold sortChains
    exact List.Perm.trans (insertChainByName_perm x (sortChains xs)) (ih.cons x)

theorem sumPos_sortChains (l : List (String × ChainConfig)) : sumPos (sortChains l) = sumPos l :=
  List.Perm.sum_eq ((sortChains_perm l).map _)

theorem sumNeg_sortChains (l : List (String × ChainConfig)) : sumNeg (sortChains l) = sumNeg l :=
  List.Perm.sum_eq ((sortChains_perm l).map _)

/-- The non-delegator base ids of a profile are exactly `1, …, sumPos`. -/
theorem allIdentities_ids_pos (cfg : AppConfig) :
    idsOf ((allIdentities cfg).filter (fun x => !x.isDelegate))
      = (posRange 1 (sumPos cfg.chains) : List Int) := by
  unfold allIdentities
  rw [idsOf_perm ((sortById_perm _).filter _), generateAll_ids_pos, sumPos_sortChains]

/-- The delegator base ids of a profile are exactly `-1, …, -sumNeg`. -/
theorem allIdentities_ids_neg (cfg : AppConfig) :
    idsOf ((allIdentities cfg).filter (fun x => x.isDelegate))
      = (negRange (-1) (sumNeg cfg.chains) : List Int) := by
  unfold allIdentities
  rw [idsOf_perm ((sortById_perm _).filter _), generateAll_ids_neg, sumNeg_sortChains]

theorem length_posRange (a : Int) (k : Nat) : (posRange a k).length = k := by
  induction k generalizing a with
  | zero => simp [posRange]
  | succ n ih => simp [posRange, ih]

theorem length_negRange (a : Int) (k : Nat) : (negRange a k).length = k := by
  induction k generalizing a with
  | zero => simp [negRange]
  | succ n ih => simp [negRange, ih]

/-- `baseNodeCount` is the total positive-id block width. -/
theorem baseNodeCount_eq (cfg : AppConfig) : baseNodeCount cfg = sumPos cfg.chains := by
  have h := allIdentities_ids_pos cfg
  have hcard := congrArg Multiset.card h
  simpa [idsOf, baseNodeCount, length_posRange] using hcard

/-- The multiset of all base ids. -/
theorem allIdentities_ids (cfg : AppConfig) :
    idsOf (allIdentities cfg)
      = (posRange 1 (sumPos cfg.chains) : List Int)
        + (negRange (-1) (sumNeg cfg.chains) : List Int) := by
  have hsplit := List.filter_append_perm (fun x => !x.isDelegate) (allIdentities cfg)
  have h1 : idsOf (allIdentities cfg)
      = idsOf ((allIdentities cfg).filter (fun x => !x.isDelegate))
        + idsOf ((allIdentities cfg).filter (fun x => !(!x.isDelegate))) := by
    rw [← idsOf_append]
    exact (idsOf_perm hsplit).symm
  rw [h1, allIdentities_ids_pos]
  have h2 : ((allIdentities cfg).filter (fun x => !(!x.isDelegate)))
      = ((allIdentities cfg).filter (fun x => x.isDelegate)) := by
    simp
  rw [h2, allIdentities_ids_neg]

/-- Bounds on base ids, split by the delegate flag. -/
theorem allIdentities_id_bounds (cfg : AppConfig) :
    ∀ x ∈ allIdentities cfg,
      (x.isDelegate = false → 1 ≤ x.id ∧ x.id ≤ sumPos cfg.chains)
        ∧ (x.isDelegate = true → -(sumNeg cfg.chains : Int) ≤ x.id ∧ x.id ≤ -1) := by
  intro x hx
  constructor
  · intro hd
    have hmem : x ∈ (allIdentities cfg).filter (fun x => !x.isDelegate) := by
      simp [List.mem_filter, hx, hd]
    have : x.id ∈ idsOf ((allIdentities cfg).filter (fun x => !x.isDelegate)) := by
      simp only [idsOf, Multiset.mem_coe]
      exact List.mem_map.mpr ⟨x, hmem, rfl⟩
    rw [allIdentities_ids_pos] at this
    have := (mem_posRange _ _ _).mp (Multiset.mem_coe.mp this)
    omega
  · intro hd
    have hmem : x ∈ (allIdentities cfg).filter (fun x => x.isDelegate) := by
      simp [List.mem_filter, hx, hd]
    have : x.id ∈ idsOf ((allIdentities cfg).filter (fun x => x.isDelegate)) := by
      simp only [idsOf, Multiset.mem_coe]
      exact List.mem_map.mpr ⟨x, hmem, rfl⟩
    rw [allIdentities_ids_neg] at this
    have := (mem_negRange _ _ _).mp (Multiset.mem_coe.mp this)
    omega

/-- The base ids are pairwise distinct. -/
theorem base_ids_nodup (cfg : AppConfig) : ((allIdentities cfg).map (fun x => x.id)).Nodup := by
  have h := allIdentities_ids cfg
  have : idsOf (allIdentities cfg)
      = ((posRange 1 (sumPos cfg.chains) ++ negRange (-1) (sumNeg cfg.chains) : List Int)
          : Multiset Int) := by
    rw [h]; simp
  rw [idsOf] at this
  have hnodup : (posRange 1 (sumPos cfg.chains) ++ negRange (-1) (sumNeg cfg.chains)).Nodup := by
    rw [List.nodup_append]
    refine ⟨nodup_posRange _ _, nodup_negRange _ _, ?_⟩
    intro a ha hb
    have h1 := (mem_posRange _ _ _).mp ha
    have h2 := (mem_negRange _ _ _).mp hb
    omega
  have := this ▸ (Multiset.coe_nodup.mpr hnodup)
  exact Multiset.coe_nodup.mp this

/-! ### Structural facts about base identities -/

theorem lowestDelegatorID_spec (l : List NodeIdentity) :
    lowestDelegatorID l ≤ 0
      ∧ ∀ x ∈ l, x.isDelegate = true → lowestDelegatorID l ≤ x.id := by
  unfold lowestDelegatorID
  suffices h : ∀ (a : Int),
      l.foldl (fun m x => if x.isDelegate ∧ x.id < m then x.id else m) a ≤ a
        ∧ ∀ x ∈ l, x.isDelegate = true →
            l.foldl (fun m x => if x.isDelegate ∧ x.id < m then x.id else m) a ≤ x.id by
    exact h 0
  induction l with
  | nil => simp
  | cons y ys ih =>
    intro a
    simp only [List.foldl_cons]
    by_cases hy : y.isDelegate ∧ y.id < a
    · rw [if_pos hy]
      obtain ⟨h1, h2⟩ := ih y.id
      refine ⟨le_trans h1 (le_of_lt hy.2), ?_⟩
      intro x hx hd
      rcases List.mem_cons.mp hx with rfl | hx'
      · exact h1
      · exact h2 x hx' hd
    · rw [if_neg hy]
      obtain ⟨h1, h2⟩ := ih a
      refine ⟨h1, ?_⟩
      intro x hx hd
      rcases List.mem_cons.mp hx with rfl | hx'
      · rcases not_and_or.mp hy with h | h
        · exact absurd hd h
        · exact le_trans h1 (not_lt.mp h)
      · exact h2 x hx' hd

theorem buildUp_forall_mem {α : Type} (mk : Int → α → NodeIdentity)
    (P : NodeIdentity → Prop) (l : List α) (hmk : ∀ (i : Int), ∀ a ∈ l, P (mk i a)) :
    ∀ (idx : Int), ∀ x ∈ buildUp mk idx l, P x := by
  induction l with
  | nil => intro idx x hx; simp [buildUp] at hx
  | cons a as ih =>
    intro idx x hx
    rcases List.mem_cons.mp hx with rfl | hx'
    · exact hmk idx a (List.mem_cons_self a as)
    · exact ih (fun i b hb => hmk i b (List.mem_cons_of_mem a hb)) (idx + 1) x hx'

theorem buildDown_forall_mem {α : Type} (mk : Int → α → NodeIdentity)
    (P : NodeIdentity → Prop) (l : List α) (hmk : ∀ (i : Int), ∀ a ∈ l, P (mk i a)) :
    ∀ (idx : Int), ∀ x ∈ buildDown mk idx l, P x := by
  induction l with
  | nil => intro idx x hx; simp [buildDown] at hx
  | cons a as ih =>
    intro idx x hx
    rcases List.mem_cons.mp hx with rfl | hx'
    · exact hmk idx a (List.mem_cons_self a as)
    · exact ih (fun i b hb => hmk i b (List.mem_cons_of_mem a hb)) (idx - 1) x hx'

theorem mem_committeeOnlyTargets (count : CommitteeAssignment → Nat) (c : ChainConfig)
    (t : Int) (ht : t ∈ committeeOnlyTargets count c) :
    ∃ ca ∈ c.committees, t = ca.id := by
  unfold committeeOnlyTargets at ht
  obtain ⟨ca, hca, hm⟩ := List.mem_flatMap.mp ht
  exact ⟨ca, hca, (List.eq_of_mem_replicate hm)⟩

theorem generateChain_forall (c : ChainConfig) (s d : Int) (P : NodeIdentity → Prop)
    (h1 : ∀ (i : Int) (n : Nat), P (mkRegular c false (validatorAssignments c) i n))
    (h2 : ∀ (i t : Int), t ∈ committeeOnlyTargets (fun ca => ca.validatorCount) c →
      P (mkCommitteeOnlyValidator c i t))
    (h3 : ∀ (i : Int) (n : Nat), P (mkRegular c true (delegatorAssignments c) i n))
    (h4 : ∀ (i t : Int), t ∈ committeeOnlyTargets (fun ca => ca.delegatorCount) c →
      P (mkCommitteeOnlyDelegator c i t))
    (h5 : ∀ i : Int, P (mkFullNode c i)) :
    ∀ x ∈ generateChainIdentities c s d, P x := by
  intro x hx
  unfold generateChainIdentities at hx
  rw [(sortById_perm _).mem_iff] at hx
  simp only [List.mem_append] at hx
  rcases hx with ((((hx | hx) | hx) | hx) | hx)
  · exact buildUp_forall_mem _ P _ (fun i a _ => h1 i a) _ x hx
  · exact buildUp_forall_mem _ P _ (fun i a ha => h2 i a ha) _ x hx
  · exact buildDown_forall_mem _ P _ (fun i a _ => h3 i a) _ x hx
  · exact buildDown_forall_mem _ P _ (fun i a ha => h4 i a ha) _ x hx
  · exact buildUp_forall_mem _ P _ (fun i a _ => h5 i) _ x hx

theorem generateAll_forall (P : NodeIdentity → Prop) :
    ∀ (l : List (String × ChainConfig)) (p n : Int),
      (∀ c ∈ l, ∀ s d : Int, ∀ x ∈ generateChainIdentities c.2 s d, P x) →
      ∀ x ∈ generateAll l p n, P x := by
  intro l
  induction l with
  | nil => intro p n _ x hx; simp [generateAll] at hx
  | cons c rest ih =>
    intro p n h x hx
    unfold generateAll at hx
    rcases List.mem_append.mp hx with hx' | hx'
    · exact h c (List.mem_cons_self c rest) p n x hx'
    · exact ih _ _ (fun c' hc' => h c' (List.mem_cons_of_mem c hc')) x hx'

theorem allIdentities_forall (cfg : AppConfig) (P : NodeIdentity → Prop)
    (h : ∀ c ∈ cfg.chains, ∀ s d : Int, ∀ x ∈ generateChainIdentities c.2 s d, P x) :
    ∀ x ∈ allIdentities cfg, P x := by
  intro x hx
  unfold allIdentities at hx
  rw [(sortById_perm _).mem_iff] at hx
  exact generateAll_forall P _ 1 (-1)
    (fun c hc => h c ((sortChains_perm cfg.chains).mem_iff.mp hc)) x hx

/-- Structural invariant of every base identity: its address is its id, the
delegate flag matches the node type, non-full-nodes carry a nonempty committee
list whose entries are its chain's id or declared committee ids, and its
`chainId` is a profile chain id or a declared committee id. -/
def BaseShape (cfg : AppConfig) (x : NodeIdentity) : Prop :=
  x.address = x.id
    ∧ x.isDelegate = decide (x.nodeType = .delegator)
    ∧ (x.nodeType = .fullnode ∨ x.committees ≠ [])
    ∧ (∃ c ∈ cfg.chains,
        (x.chainId = c.2.id ∨ ∃ ca ∈ c.2.committees, x.chainId = ca.id)
          ∧ ∀ t ∈ x.committees, t = c.2.id ∨ ∃ ca ∈ c.2.committees, t = ca.id)

theorem allIdentities_baseShape (cfg : AppConfig) :
    ∀ x ∈ allIdentities cfg, BaseShape cfg x := by
  apply allIdentities_forall
  intro c hc s d
  apply generateChain_forall
  · intro i n
    refine ⟨rfl, rfl, Or.inr (by simp [mkRegular]), c, hc, Or.inl rfl, ?_⟩
    intro t ht
    simp only [mkRegular, List.mem_cons] at ht
    rcases ht with rfl | ht'
    · exact Or.inl rfl
    · unfold validatorAssignments at ht'
      obtain ⟨ca, hca, hval⟩ := List.mem_filterMap.mp ht'
      right
      refine ⟨ca, hca, ?_⟩
      by_cases hcond : n < ca.repeatedIdentityValidatorCount ∧ n < c.2.validatorsCount
      · rw [if_pos hcond] at hval; exact (Option.some.inj hval).symm
      · rw [if_neg hcond] at hval; exact absurd hval (by simp)
  · intro i t ht
    obtain ⟨ca, hca, rfl⟩ := mem_committeeOnlyTargets _ _ _ ht
    refine ⟨rfl, rfl, Or.inr (by simp [mkCommitteeOnlyValidator]), c, hc,
      Or.inr ⟨ca, hca, rfl⟩, ?_⟩
    intro t' ht'
    simp only [mkCommitteeOnlyValidator, List.mem_singleton] at ht'
    exact Or.inr ⟨ca, hca, ht'⟩
  · intro i n
    refine ⟨rfl, rfl, Or.inr (by simp [mkRegular]), c, hc, Or.inl rfl, ?_⟩
    intro t ht
    simp only [mkRegular, List.mem_cons] at ht
    rcases ht with rfl | ht'
    · exact Or.inl rfl
    · unfold delegatorAssignments at ht'
      obtain ⟨ca, hca, hval⟩ := List.mem_filterMap.mp ht'
      right
      refine ⟨ca, hca, ?_⟩
      by_cases hcond : n < ca.repeatedIdentityDelegatorCount ∧ n < c.2.delegatorsCount
      · rw [if_pos hcond] at hval; exact (Option.some.inj hval).symm
      · rw [if_neg hcond] at hval; exact absurd hval (by simp)
  · intro i t ht
    obtain ⟨ca, hca, rfl⟩ := mem_committeeOnlyTargets _ _ _ ht
    refine ⟨rfl, rfl, Or.inr (by simp [mkCommitteeOnlyDelegator]), c, hc,
      Or.inr ⟨ca, hca, rfl⟩, ?_⟩
    intro t' ht'
    simp only [mkCommitteeOnlyDelegator, List.mem_singleton] at ht'
    exact Or.inr ⟨ca, hca, ht'⟩
  · intro i
    exact ⟨rfl, rfl, Or.inl rfl, c, hc, Or.inl rfl, by simp [mkFullNode]⟩

/-! ### Expansion id accounting -/

theorem withIndex_fst_ge {α : Type} (l : List α) :
    ∀ n : Nat, ∀ p ∈ withIndex n l, n ≤ p.1 := by
  induction l with
  | nil => intro n p hp; simp [withIndex] at hp
  | cons a as ih =>
    intro n p hp
    rcases List.mem_cons.mp hp with rfl | hp'
    · exact le_refl n
    · exact le_trans (Nat.le_succ n) (ih (n + 1) p hp')

theorem expandIdentityLoop_ids (ctr : Int → Int) (x : NodeIdentity) (L : List (Nat × Int))
    (hL : ∀ p ∈ L, p.1 ≠ 0) :
    ∀ (up down : Int), ∃ u v : Nat,
      (expandIdentityLoop ctr x L up down).2.1 = up + u
        ∧ (expandIdentityLoop ctr x L up down).2.2 = down - v
        ∧ (expandIdentityLoop ctr x L up down).1.map (fun e => e.identity.id)
            = posRange up u ++ negRange down v
        ∧ (x.isDelegate = true → u = 0) ∧ (x.isDelegate = false → v = 0) := by
  induction L with
  | nil =>
    intro up down
    exact ⟨0, 0, by simp [expandIdentityLoop], by simp [expandIdentityLoop],
      by simp [expandIdentityLoop, posRange, negRange], fun _ => rfl, fun _ => rfl⟩
  | cons ic rest ih =>
    intro up down
    obtain ⟨i, committee⟩ := ic
    have hi : i ≠ 0 := hL (i, committee) (List.mem_cons_self _ _)
    have hrest : ∀ p ∈ rest, p.1 ≠ 0 := fun p hp => hL p (List.mem_cons_of_mem _ hp)
    unfold expandIdentityLoop
    rw [if_neg hi]
    by_cases hexp : expandingContains x.expandingCommittees committee = true
    · rw [if_pos hexp]
      by_cases hdel : x.isDelegate = true
      · simp only [if_pos hdel]
        obtain ⟨u', v', h1, h2, h3, h4, h5⟩ := (ih hrest) up (down - 1)
        refine ⟨u', v' + 1, h1, ?_, ?_, fun _ => h4 hdel, ?_⟩
        · rw [h2]; push_cast; ring
        · simp only [List.map_cons]
          rw [h3, h4 hdel]
          simp only [posRange, List.nil_append]
          show down :: negRange (down - 1) v' = negRange down (v' + 1)
          rfl
        · intro hf; rw [hdel] at hf; exact absurd hf (by simp)
      · have hdel' : x.isDelegate = false := by
          cases hxd : x.isDelegate
          · rfl
          · exact absurd hxd hdel
        simp only [if_neg hdel]
        obtain ⟨u', v', h1, h2, h3, h4, h5⟩ := (ih hrest) (up + 1) down
        refine ⟨u' + 1, v', ?_, ?_, ?_, ?_, fun _ => h5 hdel'⟩
        · rw [h1]; push_cast; ring
        · exact h2
        · simp only [List.map_cons]
          rw [h3, h5 hdel']
          simp only [negRange, List.append_nil]
          show up :: posRange (up + 1) u' = posRange up (u' + 1)
          rfl
        · intro hf; rw [hf] at hdel'; exact absurd hdel' (by simp)
    · rw [if_neg hexp]
      exact (ih hrest) up down

theorem expandStep_ids (ctr : Int → Int) (x : NodeIdentity)
    (hx : x.nodeType = .fullnode ∨ x.committees ≠ []) (up down : Int) :
    ∃ u v : Nat,
      (expandStep ctr x up down).2.1 = up + u
        ∧ (expandStep ctr x up down).2.2 = down - v
        ∧ (expandStep ctr x up down).1.map (fun e => e.identity.id)
            = x.id :: (posRange up u ++ negRange down v)
        ∧ (x.isDelegate = true → u = 0) ∧ (x.isDelegate = false → v = 0) := by
  unfold expandStep
  by_cases hbr : x.nodeType = .fullnode ∨ x.committees.length = 1
  · rw [if_pos hbr]
    exact ⟨0, 0, by simp, by simp, by simp [baseEntry, posRange, negRange],
      fun _ => rfl, fun _ => rfl⟩
  · rw [if_neg hbr]
    have hne : x.committees ≠ [] := by
      rcases hx with h | h
      · exact absurd (Or.inl h) hbr
      · exact h
    obtain ⟨c₀, cs, hcc⟩ := List.exists_cons_of_ne_nil hne
    rw [hcc]
    have hw : withIndex 0 (c₀ :: cs) = (0, c₀) :: withIndex 1 cs := rfl
    rw [hw]
    unfold expandIdentityLoop
    rw [if_pos rfl]
    obtain ⟨u, v, h1, h2, h3, h4, h5⟩ :=
      expandIdentityLoop_ids ctr x (withIndex 1 cs)
        (fun p hp => by have := withIndex_fst_ge cs 1 p hp; omega) up down
    refine ⟨u, v, h1, h2, ?_, h4, h5⟩
    simp only [List.map_cons, h3]
    rfl

theorem expandAll_ids (ctr : Int → Int) (l : List NodeIdentity)
    (hl : ∀ x ∈ l, x.nodeType = .fullnode ∨ x.committees ≠ []) :
    ∀ (up down : Int), ∃ u v : Nat,
      (expandAll ctr l up down).2.1 = up + u
        ∧ (expandAll ctr l up down).2.2 = down - v
        ∧ ((expandAll ctr l up down).1.map (fun e => e.identity.id) : Multiset Int)
            = ((l.map (fun x => x.id) : List Int) : Multiset Int)
              + ((posRange up u : List Int) : Multiset Int)
              + ((negRange down v : List Int) : Multiset Int) := by
  induction l with
  | nil =>
    intro up down
    exact ⟨0, 0, by simp [expandAll], by simp [expandAll],
      by simp [expandAll, posRange, negRange]⟩
  | cons x rest ih =>
    intro up down
    have hx := hl x (List.mem_cons_self x rest)
    have hrest : ∀ y ∈ rest, y.nodeType = .fullnode ∨ y.committees ≠ [] :=
      fun y hy => hl y (List.mem_cons_of_mem x hy)
    obtain ⟨u₁, v₁, h1, h2, h3, -, -⟩ := expandStep_ids ctr x hx up down
    obtain ⟨u₂, v₂, g1, g2, g3⟩ := (ih hrest) (up + u₁) (down - v₁)
    refine ⟨u₁ + u₂, v₁ + v₂, ?_, ?_, ?_⟩
    · show (expandAll ctr rest (expandStep ctr x up down).2.1
          (expandStep ctr x up down).2.2).2.1 = _
      rw [h1, h2, g1]
      push_cast
      ring
    · show (expandAll ctr rest (expandStep ctr x up down).2.1
          (expandStep ctr x up down).2.2).2.2 = _
      rw [h1, h2, g2]
      push_cast
      ring
    · show (((expandStep ctr x up down).1
          ++ (expandAll ctr rest (expandStep ctr x up down).2.1
              (expandStep ctr x up down).2.2).1).map (fun e => e.identity.id) : Multiset Int)
        = _
    
      rw [List.map_append]
      have hcoe : (((expandStep ctr x up down).1.map (fun e => e.identity.id)
            ++ (expandAll ctr rest (expandStep ctr x up down).2.1
                (expandStep ctr x up down).2.2).1.map (fun e => e.identity.id) : List Int)
              : Multiset Int)
          = ((expandStep ctr x up down).1.map (fun e => e.identity.id) : List Int)
            + ((expandAll ctr rest (expandStep ctr x up down).2.1
                (expandStep ctr x up down).2.2).1.map (fun e => e.identity.id) : List Int) := by
        simp
      rw [hcoe, h3, h1, h2, g3]
      rw [posRange_add up u₁ u₂, negRange_add down v₁ v₂]
      simp only [List.map_cons, ← Multiset.cons_coe, ← Multiset.coe_add]
      simp only [← Multiset.singleton_add]
      abel

theorem allIdentities_fullnode_or_committees (cfg : AppConfig) :
    ∀ x ∈ allIdentities cfg, x.nodeType = .fullnode ∨ x.committees ≠ [] :=
  fun x hx => (allIdentities_baseShape cfg x hx).2.2.1

/-- The expanded id multiset: the base ids plus a run of fresh ids starting
at `baseNodeCount + 1` and a run of fresh delegator ids starting one below
the lowest base delegator id. -/
theorem expandedEntries_ids_decomp (cfg : AppConfig) :
    ∃ u v : Nat,
      (((expandedEntries cfg).map (fun e => e.identity.id) : List Int) : Multiset Int)
        = (((allIdentities cfg).map (fun x => x.id) : List Int) : Multiset Int)
          + ((posRange ((baseNodeCount cfg : Int) + 1) u : List Int) : Multiset Int)
          + ((negRange (lowestDelegatorID (allIdentities cfg) - 1) v : List Int) : Multiset Int) := by
  obtain ⟨u, v, -, -, h⟩ :=
    expandAll_ids (chainToRootChain cfg) (allIdentities cfg)
      (allIdentities_fullnode_or_committees cfg)
      ((baseNodeCount cfg : Int) + 1) (lowestDelegatorID (allIdentities cfg) - 1)
  exact ⟨u, v, h⟩

/-- C4: the ids assigned to all identities — base and expanded, validators,
delegators and full nodes — are pairwise distinct. -/
theorem planner_ids_globally_unique (cfg : AppConfig) :
    ((allIdentities cfg).map (fun x => x.id)).Nodup
      ∧ ((expandedEntries cfg).map (fun e => e.identity.id)).Nodup := by
  refine ⟨base_ids_nodup cfg, ?_⟩
  obtain ⟨u, v, h⟩ := expandedEntries_ids_decomp cfg
  rw [← Multiset.coe_nodup, h]
  have hlow := lowestDelegatorID_spec (allIdentities cfg)
  have hbound := allIdentities_id_bounds cfg
  have hbase_mem : ∀ a : Int,
      a ∈ (((allIdentities cfg).map (fun x => x.id) : List Int) : Multiset Int) →
      (1 ≤ a ∧ a ≤ sumPos cfg.chains)
        ∨ (-(sumNeg cfg.chains : Int) ≤ a ∧ a ≤ -1
            ∧ lowestDelegatorID (allIdentities cfg) ≤ a) := by
    intro a ha
    obtain ⟨x, hx, rfl⟩ := List.mem_map.mp (Multiset.mem_coe.mp ha)
    cases hxd : x.isDelegate
    · exact Or.inl ((hbound x hx).1 hxd)
    · exact Or.inr ⟨((hbound x hx).2 hxd).1, ((hbound x hx).2 hxd).2, hlow.2 x hx hxd⟩
  have hP : baseNodeCount cfg = sumPos cfg.chains := baseNodeCount_eq cfg
  rw [Multiset.nodup_add, Multiset.nodup_add]
  refine ⟨⟨Multiset.coe_nodup.mpr (base_ids_nodup cfg),
      Multiset.coe_nodup.mpr (nodup_posRange _ _), ?_⟩,
    Multiset.coe_nodup.mpr (nodup_negRange _ _), ?_⟩
  · -- base ids are disjoint from the fresh positive run
    rw [Multiset.disjoint_left]
    intro a ha hb
    have h1 := hbase_mem a ha
    have h2 := (mem_posRange _ _ _).mp (Multiset.mem_coe.mp hb)
    rcases h1 with ⟨ha1, ha2⟩ | ⟨ha1, ha2, ha3⟩ <;> omega
  · -- base and fresh positive ids are disjoint from the fresh negative run
    rw [Multiset.disjoint_left]
    intro a ha hb
    have h2 := (mem_negRange _ _ _).mp (Multiset.mem_coe.mp hb)
    rcases Multiset.mem_add.mp ha with ha' | ha'
    · rcases hbase_mem a ha' with ⟨ha1, ha2⟩ | ⟨ha1, ha2, ha3⟩
      · have := hlow.1
        omega
      · omega
    · have h1 := (mem_posRange _ _ _).mp (Multiset.mem_coe.mp ha')
      have := hlow.1
      omega

/-! ### What a passing validation guarantees -/

theorem validateCommitteeAssignments_ok_parts (cfg : AppConfig)
    (h : validateCommitteeAssignments cfg = .ok ()) :
    rootChainValidatorTotal cfg ≠ 0
      ∧ (∀ p ∈ cfg.chains, committeeCheckErr cfg p = none)
      ∧ (∀ p ∈ cfg.chains, nestedChainErr cfg p = none) := by
  unfold validateCommitteeAssignments at h
  by_cases h0 : rootChainValidatorTotal cfg = 0
  · rw [if_pos h0] at h; exact absurd h (by simp)
  · rw [if_neg h0] at h
    cases h1 : cfg.chains.findSome? (committeeCheckErr cfg) with
    | some e => rw [h1] at h; exact absurd h (by simp)
    | none =>
      rw [h1] at h
      cases h2 : cfg.chains.findSome? (nestedChainErr cfg) with
      | some e => rw [h2] at h; exact absurd h (by simp)
      | none =>
        exact ⟨h0, fun p hp => List.findSome?_eq_none.mp h1 p hp,
          fun p hp => List.findSome?_eq_none.mp h2 p hp⟩

theorem committeeCheckErr_none_facts (cfg : AppConfig) (p : String × ChainConfig)
    (h : committeeCheckErr cfg p = none) :
    ∀ ca ∈ p.2.committees,
      (∃ q ∈ cfg.chains, q.2.id = ca.id)
        ∧ ca.repeatedIdentityValidatorCount ≤ p.2.validatorsCount
        ∧ ca.repeatedIdentityDelegatorCount ≤ p.2.delegatorsCount := by
  intro ca hca
  unfold committeeCheckErr at h
  have hca' := List.findSome?_eq_none.mp h ca hca
  by_cases h1 : cfg.chains.any (fun q => q.2.id = ca.id) = true
  · refine ⟨?_, ?_, ?_⟩
    · obtain ⟨q, hq, hqid⟩ := List.any_eq_true.mp h1
      exact ⟨q, hq, by simpa using hqid⟩
    · by_contra hcon
      have h2 : ca.repeatedIdentityValidatorCount > p.2.validatorsCount := by omega
      rw [if_neg (by simpa using h1), if_pos h2] at hca'
      exact absurd hca' (by simp)
    · by_contra hcon
      rw [if_neg (by simpa using h1)] at hca'
      by_cases h2 : ca.repeatedIdentityValidatorCount > p.2.validatorsCount
      · rw [if_pos h2] at hca'; exact absurd hca' (by simp)
      · have h3 : ca.repeatedIdentityDelegatorCount > p.2.delegatorsCount := by omega
        rw [if_neg h2, if_pos h3] at hca'
        exact absurd hca' (by simp)
  · rw [if_pos (by simpa using h1)] at hca'
    exact absurd hca' (by simp)

theorem nestedChainErr_none_facts (cfg : AppConfig) (p : String × ChainConfig)
    (h : nestedChainErr cfg p = none) (hnested : p.2.id ≠ p.2.rootChain) :
    ∃ rootP : String × ChainConfig,
      cfg.chains.find? (fun q => q.2.id = p.2.rootChain) = some rootP
        ∧ ∃ ca ∈ rootP.2.committees,
            ca.id = p.2.id
              ∧ ca.repeatedIdentityValidatorCount + ca.validatorCount ≠ 0 := by
  unfold nestedChainErr at h
  rw [if_neg hnested] at h
  cases hfind : cfg.chains.find? (fun q => q.2.id = p.2.rootChain) with
  | none => rw [hfind] at h; exact absurd h (by simp)
  | some rootP =>
    simp only [hfind] at h
    refine ⟨rootP, rfl, ?_⟩
    cases hfca : rootP.2.committees.find? (fun ca => ca.id = p.2.id) with
    | none =>
      rw [hfca] at h
      simp at h
    | some ca =>
      simp only [hfca] at h
      refine ⟨ca, List.mem_of_find?_eq_some hfca, by simpa using List.find?_some hfca, ?_⟩
      by_contra hcon
      rw [if_pos hcon] at h
      exact absurd h (by simp)

theorem rootChainValidatorTotal_pos (cfg : AppConfig)
    (h : rootChainValidatorTotal cfg ≠ 0) :
    ∃ c ∈ cfg.chains, c.2.id = c.2.rootChain ∧ 0 < c.2.validatorsCount := by
  by_contra hcon
  push_neg at hcon
  apply h
  unfold rootChainValidatorTotal
  suffices hz : ∀ (l : List (String × ChainConfig)),
      (∀ c ∈ l, c.2.id = c.2.rootChain → c.2.validatorsCount = 0) →
      ∀ acc : Nat,
        l.foldl (fun acc p => if p.2.id = p.2.rootChain then acc + p.2.validatorsCount else acc) acc
          = acc by
    exact hz cfg.chains (fun c hc heq => by
      have := hcon c hc heq
      omega) 0
  intro l
  induction l with
  | nil => intro _ acc; rfl
  | cons c rest ih =>
    intro hl acc
    simp only [List.foldl_cons]
    by_cases hc : c.2.id = c.2.rootChain
    · rw [if_pos hc, hl c (List.mem_cons_self c rest) hc]
      exact ih (fun c' hc' => hl c' (List.mem_cons_of_mem c hc')) acc
    · rw [if_neg hc]
      exact ih (fun c' hc' => hl c' (List.mem_cons_of_mem c hc')) acc

/-- With unique chain ids, `chainToRootChain` of a chain's own id is that
chain's `rootChain`. -/
theorem chainToRootChain_self (cfg : AppConfig)
    (hids : (cfg.chains.map (fun p => p.2.id)).Nodup)
    (c : String × ChainConfig) (hc : c ∈ cfg.chains) :
    chainToRootChain cfg c.2.id = c.2.rootChain := by
  unfold chainToRootChain
  cases hfind : cfg.chains.find? (fun p => p.2.id = c.2.id) with
  | none =>
    have := List.find?_eq_none.mp hfind c hc
    simp at this
  | some p =>
    have hpmem := List.mem_of_find?_eq_some hfind
    have hpid : p.2.id = c.2.id := by
      have := List.find?_some hfind
      simpa using this
    have : p = c := List.inj_on_of_nodup_map hids hpmem hc hpid
    rw [this]

/-! ### Introducing members of the generated identity lists -/

theorem buildUp_mem_intro {α : Type} (mk : Int → α → NodeIdentity) (l : List α) (a : α)
    (ha : a ∈ l) : ∀ idx : Int, ∃ i : Int, mk i a ∈ buildUp mk idx l := by
  induction l with
  | nil => exact absurd ha (by simp)
  | cons b bs ih =>
    intro idx
    rcases List.mem_cons.mp ha with rfl | ha'
    · exact ⟨idx, List.mem_cons_self _ _⟩
    · obtain ⟨i, hi⟩ := ih ha' (idx + 1)
      exact ⟨i, List.mem_cons_of_mem _ hi⟩

theorem generateChain_mem_validator (c : ChainConfig) (s d : Int)
    (hV : 0 < c.validatorsCount) :
    ∃ y ∈ generateChainIdentities c s d,
      ∃ i : Int, y = mkRegular c false (validatorAssignments c) i 0 := by
  obtain ⟨i, hi⟩ := buildUp_mem_intro (mkRegular c false (validatorAssignments c))
    (List.range c.validatorsCount) 0 (List.mem_range.mpr hV) s
  refine ⟨mkRegular c false (validatorAssignments c) i 0, ?_, i, rfl⟩
  unfold generateChainIdentities
  rw [(sortById_perm _).mem_iff]
  simp only [List.mem_append]
  exact Or.inl (Or.inl (Or.inl (Or.inl hi)))

theorem generateChain_mem_committeeOnly (c : ChainConfig) (s d : Int) (t : Int)
    (ht : t ∈ committeeOnlyTargets (fun ca => ca.validatorCount) c) :
    ∃ y ∈ generateChainIdentities c s d, ∃ i : Int, y = mkCommitteeOnlyValidator c i t := by
  obtain ⟨i, hi⟩ := buildUp_mem_intro (mkCommitteeOnlyValidator c)
    (committeeOnlyTargets (fun ca => ca.validatorCount) c) t ht (s + c.validatorsCount)
  refine ⟨mkCommitteeOnlyValidator c i t, ?_, i, rfl⟩
  unfold generateChainIdentities
  rw [(sortById_perm _).mem_iff]
  simp only [List.mem_append]
  exact Or.inl (Or.inl (Or.inl (Or.inr hi)))

theorem generateAll_mem_chain (c : String × ChainConfig) :
    ∀ (l : List (String × ChainConfig)) (p n : Int), c ∈ l →
      ∃ s d : Int, ∀ y ∈ generateChainIdentities c.2 s d, y ∈ generateAll l p n := by
  intro l
  induction l with
  | nil => intro p n hc; exact absurd hc (by simp)
  | cons c' rest ih =>
    intro p n hc
    rcases List.mem_cons.mp hc with rfl | hc'
    · refine ⟨p, n, fun y hy => ?_⟩
      unfold generateAll
      exact List.mem_append.mpr (Or.inl hy)
    · obtain ⟨s, d, hsd⟩ := ih (p + chainPosCount c'.2) (n - chainNegCount c'.2) hc'
      refine ⟨s, d, fun y hy => ?_⟩
      unfold generateAll
      exact List.mem_append.mpr (Or.inr (hsd y hy))

theorem allIdentities_mem_chain (cfg : AppConfig) (c : String × ChainConfig)
    (hc : c ∈ cfg.chains) :
    ∃ s d : Int, ∀ y ∈ generateChainIdentities c.2 s d, y ∈ allIdentities cfg := by
  obtain ⟨s, d, hsd⟩ :=
    generateAll_mem_chain c (sortChains cfg.chains) 1 (-1)
      ((sortChains_perm cfg.chains).mem_iff.mpr hc)
  refine ⟨s, d, fun y hy => ?_⟩
  unfold allIdentities
  rw [(sortById_perm _).mem_iff]
  exact hsd y hy

/-! ### Shape of expansion entries -/

theorem withIndex_snd_mem {α : Type} (l : List α) :
    ∀ (n : Nat), ∀ p ∈ withIndex n l, p.2 ∈ l := by
  induction l with
  | nil => intro n p hp; simp [withIndex] at hp
  | cons a as ih =>
    intro n p hp
    rcases List.mem_cons.mp hp with rfl | hp'
    · exact List.mem_cons_self _ _
    · exact List.mem_cons_of_mem _ (ih (n + 1) p hp')

theorem withIndex_mem_intro {α : Type} (l : List α) (a : α) (ha : a ∈ l) :
    ∀ n : Nat, ∃ j : Nat, (j, a) ∈ withIndex n l ∧ n ≤ j := by
  induction l with
  | nil => exact absurd ha (by simp)
  | cons b bs ih =>
    intro n
    rcases List.mem_cons.mp ha with rfl | ha'
    · exact ⟨n, List.mem_cons_self _ _, le_refl n⟩
    · obtain ⟨j, hj, hle⟩ := ih ha' (n + 1)
      exact ⟨j, List.mem_cons_of_mem _ hj, by omega⟩

theorem expandIdentityLoop_entry_shape (ctr : Int → Int) (x : NodeIdentity) :
    ∀ (L : List (Nat × Int)) (up down : Int), (∀ p ∈ L, p.2 ∈ x.committees) →
      ∀ e ∈ (expandIdentityLoop ctr x L up down).1,
        e.identity.address = x.address ∧ e.originalAddr = x.address
          ∧ e.identity.nodeType = x.nodeType ∧ e.identity.isDelegate = x.isDelegate
          ∧ e.identity.expandingCommittees = x.expandingCommittees
          ∧ (e.identity.chainId = x.chainId ∨ e.identity.chainId ∈ x.committees)
          ∧ e.isRootChain = decide (e.identity.chainId = ctr e.identity.chainId) := by
  intro L
  induction L with
  | nil => intro up down _ e he; simp [expandIdentityLoop] at he
  | cons ic rest ih =>
    intro up down hL e he
    obtain ⟨i, committee⟩ := ic
    have hrest : ∀ p ∈ rest, p.2 ∈ x.committees :=
      fun p hp => hL p (List.mem_cons_of_mem _ hp)
    unfold expandIdentityLoop at he
    by_cases hi : i = 0
    · rw [if_pos hi] at he
      rcases List.mem_cons.mp he with rfl | he'
      · exact ⟨rfl, rfl, rfl, rfl, rfl, Or.inl rfl, rfl⟩
      · exact ih up down hrest e he'
    · rw [if_neg hi] at he
      by_cases hexp : expandingContains x.expandingCommittees committee = true
      · rw [if_pos hexp] at he
        rcases List.mem_cons.mp he with heq | he'
        · subst heq
          exact ⟨rfl, rfl, rfl, rfl, rfl,
            Or.inr (hL (i, committee) (List.mem_cons_self _ _)), rfl⟩
        · exact ih _ _ hrest e he'
      · rw [if_neg hexp] at he
        exact ih up down hrest e he

theorem expandStep_entry_shape (ctr : Int → Int) (x : NodeIdentity) (up down : Int) :
    ∀ e ∈ (expandStep ctr x up down).1,
      e.identity.address = x.address ∧ e.originalAddr = x.address
        ∧ e.identity.nodeType = x.nodeType ∧ e.identity.isDelegate = x.isDelegate
        ∧ e.identity.expandingCommittees = x.expandingCommittees
        ∧ (e.identity.chainId = x.chainId ∨ e.identity.chainId ∈ x.committees)
        ∧ e.isRootChain = decide (e.identity.chainId = ctr e.identity.chainId) := by
  intro e he
  unfold expandStep at he
  by_cases hbr : x.nodeType = .fullnode ∨ x.committees.length = 1
  · rw [if_pos hbr] at he
    rcases List.mem_singleton.mp he with rfl
    exact ⟨rfl, rfl, rfl, rfl, rfl, Or.inl rfl, rfl⟩
  · rw [if_neg hbr] at he
    exact expandIdentityLoop_entry_shape ctr x (withIndex 0 x.committees) up down
      (fun p hp => withIndex_snd_mem x.committees 0 p hp) e he

theorem expandAll_entry_shape (ctr : Int → Int) (l : List NodeIdentity) :
    ∀ (up down : Int), ∀ e ∈ (expandAll ctr l up down).1,
      ∃ b ∈ l,
        e.identity.address = b.address ∧ e.originalAddr = b.address
          ∧ e.identity.nodeType = b.nodeType ∧ e.identity.isDelegate = b.isDelegate
          ∧ e.identity.expandingCommittees = b.expandingCommittees
          ∧ (e.identity.chainId = b.chainId ∨ e.identity.chainId ∈ b.committees)
          ∧ e.isRootChain = decide (e.identity.chainId = ctr e.identity.chainId) := by
  induction l with
  | nil => intro up down e he; simp [expandAll] at he
  | cons x rest ih =>
    intro up down e he
    have he' : e ∈ (expandStep ctr x up down).1
        ∨ e ∈ (expandAll ctr rest (expandStep ctr x up down).2.1
            (expandStep ctr x up down).2.2).1 :=
      List.mem_append.mp he
    rcases he' with h | h
    · exact ⟨x, List.mem_cons_self _ _, expandStep_entry_shape ctr x up down e h⟩
    · obtain ⟨b, hb, hprops⟩ := ih _ _ e h
      exact ⟨b, List.mem_cons_of_mem _ hb, hprops⟩

/-! ### Membership of particular expansion entries -/

theorem expandStep_base_mem (ctr : Int → Int) (x : NodeIdentity)
    (hx : x.nodeType = .fullnode ∨ x.committees ≠ []) (up down : Int) :
    baseEntry ctr x ∈ (expandStep ctr x up down).1 := by
  unfold expandStep
  by_cases hbr : x.nodeType = .fullnode ∨ x.committees.length = 1
  · rw [if_pos hbr]; exact List.mem_singleton.mpr rfl
  · rw [if_neg hbr]
    have hne : x.committees ≠ [] := by
      rcases hx with h | h
      · exact absurd (Or.inl h) hbr
      · exact h
    obtain ⟨c₀, cs, hcc⟩ := List.exists_cons_of_ne_nil hne
    rw [hcc]
    show baseEntry ctr x ∈ (expandIdentityLoop ctr x ((0, c₀) :: withIndex 1 cs) up down).1
    unfold expandIdentityLoop
    rw [if_pos rfl]
    exact List.mem_cons_self _ _

theorem expandAll_base_mem (ctr : Int → Int) (l : List NodeIdentity)
    (hl : ∀ x ∈ l, x.nodeType = .fullnode ∨ x.committees ≠ []) :
    ∀ (up down : Int), ∀ x ∈ l, baseEntry ctr x ∈ (expandAll ctr l up down).1 := by
  induction l with
  | nil => intro up down x hx; exact absurd hx (by simp)
  | cons y rest ih =>
    intro up down x hx
    rcases List.mem_cons.mp hx with rfl | hx'
    · exact List.mem_append.mpr
        (Or.inl (expandStep_base_mem ctr x (hl x (List.mem_cons_self _ _)) up down))
    · exact List.mem_append.mpr
        (Or.inr (ih (fun z hz => hl z (List.mem_cons_of_mem _ hz)) _ _ x hx'))

theorem expandIdentityLoop_exp_mem (ctr : Int → Int) (x : NodeIdentity) :
    ∀ (L : List (Nat × Int)) (up down : Int) (j : Nat) (t : Int),
      (j, t) ∈ L → j ≠ 0 → expandingContains x.expandingCommittees t = true →
      ∃ e ∈ (expandIdentityLoop ctr x L up down).1,
        e.identity.chainId = t ∧ e.identity.genesisChainId = t
          ∧ e.identity.nodeType = x.nodeType ∧ e.identity.isDelegate = x.isDelegate
          ∧ e.identity.expandingCommittees = x.expandingCommittees
          ∧ e.originalAddr = x.address
          ∧ e.isRootChain = decide (t = ctr t) := by
  intro L
  induction L with
  | nil => intro up down j t hj; exact absurd hj (by simp)
  | cons ic rest ih =>
    intro up down j t hjt hj hexp
    obtain ⟨i, committee⟩ := ic
    unfold expandIdentityLoop
    rcases List.mem_cons.mp hjt with heq | hjt'
    · have hi : i = j := (congrArg Prod.fst heq).symm
      have hc : committee = t := (congrArg Prod.snd heq).symm
      subst hi; subst hc
      rw [if_neg hj, if_pos hexp]
      refine ⟨_, List.mem_cons_self _ _, rfl, rfl, rfl, rfl, rfl, rfl, rfl⟩
    · by_cases hi : i = 0
      · rw [if_pos hi]
        obtain ⟨e, he, hprops⟩ := ih up down j t hjt' hj hexp
        exact ⟨e, List.mem_cons_of_mem _ he, hprops⟩
      · rw [if_neg hi]
        by_cases hexp' : expandingContains x.expandingCommittees committee = true
        · rw [if_pos hexp']
          obtain ⟨e, he, hprops⟩ := ih _ _ j t hjt' hj hexp
          exact ⟨e, List.mem_cons_of_mem _ he, hprops⟩
        · rw [if_neg hexp']
          exact ih up down j t hjt' hj hexp

theorem expandStep_exp_mem (ctr : Int → Int) (x : NodeIdentity) (up down : Int)
    (hfn : x.nodeType ≠ .fullnode) (c₀ : Int) (cs : List Int)
    (hcc : x.committees = c₀ :: cs) (t : Int) (ht : t ∈ cs)
    (hexp : expandingContains x.expandingCommittees t = true) :
    ∃ e ∈ (expandStep ctr x up down).1,
      e.identity.chainId = t ∧ e.identity.genesisChainId = t
        ∧ e.identity.nodeType = x.nodeType ∧ e.identity.isDelegate = x.isDelegate
        ∧ e.identity.expandingCommittees = x.expandingCommittees
        ∧ e.originalAddr = x.address
        ∧ e.isRootChain = decide (t = ctr t) := by
  unfold expandStep
  have hbr : ¬ (x.nodeType = .fullnode ∨ x.committees.length = 1) := by
    rintro (h | h)
    · exact hfn h
    · rw [hcc] at h
      simp at h
      rw [h] at ht
      exact absurd ht (by simp)
  rw [if_neg hbr]
  obtain ⟨j, hj, hge⟩ := withIndex_mem_intro cs t ht 1
  have hjt : (j, t) ∈ withIndex 0 x.committees := by
    rw [hcc]
    exact List.mem_cons_of_mem _ hj
  exact expandIdentityLoop_exp_mem ctr x (withIndex 0 x.committees) up down j t hjt
    (by omega) hexp

theorem expandAll_exp_mem (ctr : Int → Int) (l : List NodeIdentity) :
    ∀ (up down : Int), ∀ x ∈ l, x.nodeType ≠ .fullnode →
      ∀ (c₀ : Int) (cs : List Int), x.committees = c₀ :: cs →
      ∀ t ∈ cs, expandingContains x.expandingCommittees t = true →
      ∃ e ∈ (expandAll ctr l up down).1,
        e.identity.chainId = t ∧ e.identity.genesisChainId = t
          ∧ e.identity.nodeType = x.nodeType ∧ e.identity.isDelegate = x.isDelegate
          ∧ e.identity.expandingCommittees = x.expandingCommittees
          ∧ e.originalAddr = x.address
          ∧ e.isRootChain = decide (t = ctr t) := by
  induction l with
  | nil => intro up down x hx; exact absurd hx (by simp)
  | cons y rest ih =>
    intro up down x hx hfn c₀ cs hcc t ht hexp
    rcases List.mem_cons.mp hx with rfl | hx'
    · obtain ⟨e, he, hprops⟩ := expandStep_exp_mem ctr x up down hfn c₀ cs hcc t ht hexp
      exact ⟨e, List.mem_append.mpr (Or.inl he), hprops⟩
    · obtain ⟨e, he, hprops⟩ := ih _ _ x hx' hfn c₀ cs hcc t ht hexp
      exact ⟨e, List.mem_append.mpr (Or.inr he), hprops⟩

/-! ### Facts about the phase-3 index structures -/

theorem expandedEntries_shape (cfg : AppConfig) :
    ∀ e ∈ expandedEntries cfg,
      ∃ b ∈ allIdentities cfg,
        e.identity.address = b.address ∧ e.originalAddr = b.address
          ∧ e.identity.nodeType = b.nodeType ∧ e.identity.isDelegate = b.isDelegate
          ∧ e.identity.expandingCommittees = b.expandingCommittees
          ∧ (e.identity.chainId = b.chainId ∨ e.identity.chainId ∈ b.committees)
          ∧ e.isRootChain
              = decide (e.identity.chainId = chainToRootChain cfg e.identity.chainId) := by
  intro e he
  exact expandAll_entry_shape (chainToRootChain cfg) (allIdentities cfg) _ _ e he

/-- An entry's root-chain flag is the root-chain test of its own `chainId`. -/
theorem expandedEntries_flag (cfg : AppConfig) :
    ∀ e ∈ expandedEntries cfg,
      (e.isRootChain = true
        ↔ chainToRootChain cfg e.identity.chainId = e.identity.chainId) := by
  intro e he
  obtain ⟨b, -, -, -, -, -, -, -, hflag⟩ := expandedEntries_shape cfg e he
  rw [hflag]
  simp [eq_comm]

/-- A validator-typed entry is never delegate-flagged. -/
theorem expandedEntries_validator_not_delegate (cfg : AppConfig) :
    ∀ e ∈ expandedEntries cfg, e.identity.nodeType = .validator →
      e.identity.isDelegate = false := by
  intro e he hv
  obtain ⟨b, hb, -, -, htype, hdel, -⟩ := expandedEntries_shape cfg e he
  have hbshape := (allIdentities_baseShape cfg b hb).2.1
  rw [hdel, hbshape, ← htype, hv]
  simp

/-- Entries with equal addresses have equal node types and delegate flags
(they are expansions of the same base identity). -/
theorem expandedEntries_addr_type (cfg : AppConfig) :
    ∀ e ∈ expandedEntries cfg, ∀ e' ∈ expandedEntries cfg,
      e.identity.address = e'.identity.address →
      e.identity.nodeType = e'.identity.nodeType
        ∧ e.identity.isDelegate = e'.identity.isDelegate := by
  intro e he e' he' haddr
  obtain ⟨b, hb, ha1, -, ht1, hd1, -⟩ := expandedEntries_shape cfg e he
  obtain ⟨b', hb', ha1', -, ht1', hd1', -⟩ := expandedEntries_shape cfg e' he'
  have hbid : b.address = b.id := (allIdentities_baseShape cfg b hb).1
  have hbid' : b'.address = b'.id := (allIdentities_baseShape cfg b' hb').1
  have hids : b.id = b'.id := by
    rw [← hbid, ← hbid', ← ha1, ← ha1', haddr]
  have hbeq : b = b' := List.inj_on_of_nodup_map (base_ids_nodup cfg) hb hb' hids
  subst hbeq
  rw [ht1, ht1', hd1, hd1']
  exact ⟨rfl, rfl⟩

theorem addressToRootChainID_some_elim (cfg : AppConfig) (a r : Int)
    (h : addressToRootChainID cfg a = some r) :
    ∃ e ∈ expandedEntries cfg,
      e.isRootChain = true ∧ e.identity.address = a ∧ e.identity.id = r := by
  unfold addressToRootChainID at h
  cases hfind : ((expandedEntries cfg).filter (fun e => e.isRootChain)).reverse.find?
      (fun e => e.identity.address = a) with
  | none => rw [hfind] at h; exact absurd h (by simp)
  | some e =>
    rw [hfind] at h
    have hid : e.identity.id = r := by simpa using h
    have hmem := List.mem_of_find?_eq_some hfind
    rw [List.mem_reverse] at hmem
    have hmem' := List.mem_filter.mp hmem
    have haddr : e.identity.address = a := by
      have := List.find?_some hfind
      simpa using this
    exact ⟨e, hmem'.1, by simpa using hmem'.2, haddr, hid⟩

theorem addressToRootChainID_isSome_intro (cfg : AppConfig) (e : ExpandedEntry)
    (he : e ∈ expandedEntries cfg) (hflag : e.isRootChain = true) :
    (addressToRootChainID cfg e.identity.address).isSome := by
  unfold addressToRootChainID
  rw [Option.isSome_map', List.find?_isSome]
  refine ⟨e, ?_, by simp⟩
  rw [List.mem_reverse]
  exact List.mem_filter.mpr ⟨he, by simp [hflag]⟩

theorem mem_rootChainNodeIDs_elim (cfg : AppConfig) (r : Int)
    (h : r ∈ rootChainNodeIDs cfg) :
    ∃ e ∈ expandedEntries cfg,
      e.identity.id = r ∧ e.isRootChain = true ∧ e.identity.nodeType = .validator := by
  unfold rootChainNodeIDs at h
  obtain ⟨e, he, hval⟩ := List.mem_filterMap.mp h
  by_cases hcond : e.isRootChain = true ∧ e.identity.nodeType = NodeType.validator
  · rw [if_pos hcond] at hval
    exact ⟨e, he, Option.some.inj hval, hcond.1, hcond.2⟩
  · rw [if_neg hcond] at hval
    exact absurd hval (by simp)

theorem mem_rootChainNodeIDs_intro (cfg : AppConfig) (e : ExpandedEntry)
    (he : e ∈ expandedEntries cfg) (hflag : e.isRootChain = true)
    (hv : e.identity.nodeType = .validator) :
    e.identity.id ∈ rootChainNodeIDs cfg := by
  unfold rootChainNodeIDs
  exact List.mem_filterMap.mpr ⟨e, he, by rw [if_pos ⟨hflag, hv⟩]⟩

theorem mem_nestedChainPeerNodes_intro (cfg : AppConfig) (e : ExpandedEntry)
    (he : e ∈ expandedEntries cfg) (hv : e.identity.nodeType = .validator)
    (hd : e.identity.isDelegate = false) (hflag : e.isRootChain = false)
    (hsome : (addressToRootChainID cfg e.originalAddr).isSome) (cid : Int)
    (hcid : e.identity.chainId = cid) :
    e.identity.id ∈ nestedChainPeerNodes cfg cid := by
  unfold nestedChainPeerNodes
  exact List.mem_filterMap.mpr ⟨e, he, by rw [if_pos ⟨hv, hd, hflag, hsome, hcid⟩]⟩

theorem mem_committeeOnlyPeerNodes_intro (cfg : AppConfig) (e : ExpandedEntry)
    (he : e ∈ expandedEntries cfg) (hv : e.identity.nodeType = .validator)
    (hd : e.identity.isDelegate = false)
    (hg : normGenesisChainId e.identity ≠ e.identity.chainId)
    (hec : e.identity.expandingCommittees = none) (cid : Int)
    (hcid : e.identity.chainId = cid) :
    e.identity.id ∈ committeeOnlyPeerNodes cfg cid := by
  unfold committeeOnlyPeerNodes
  exact List.mem_filterMap.mpr ⟨e, he, by rw [if_pos ⟨hv, hd, hg, hec, hcid⟩]⟩

/-! ### The pointer-assignment pass -/

/-- How an emitted identity's `rootChainNode` was determined: self-reference
on a root chain, the root-chain entry of the same address, or a load-balanced
pick from `rootChainNodeIDs`. -/
def RootPtrSpec (cfg : AppConfig) (e : ExpandedEntry) (v : NodeIdentity) : Prop :=
  (e.isRootChain = true ∧ v.rootChainNode = some e.identity.id)
    ∨ (∃ r, addressToRootChainID cfg e.originalAddr = some r ∧ v.rootChainNode = some r)
    ∨ (e.isRootChain = false ∧ addressToRootChainID cfg e.originalAddr = none
        ∧ ∃ rc : Int → Nat,
            v.rootChainNode = some (findLeastAssigned rc (rootChainNodeIDs cfg)))

theorem assignLoop_sound (cfg : AppConfig) :
    ∀ (L : List ExpandedEntry) (rc pc : Int → Nat),
      ∀ v ∈ (assignLoop cfg L rc pc).1,
        ∃ e ∈ L, e.identity.isDelegate = false
          ∧ v.id = e.identity.id ∧ v.chainId = e.identity.chainId
          ∧ v.nodeType = e.identity.nodeType ∧ v.address = e.identity.address
          ∧ RootPtrSpec cfg e v := by
  intro L
  induction L with
  | nil => intro rc pc v hv; simp [assignLoop] at hv
  | cons e rest ih =>
    intro rc pc v hv
    unfold assignLoop at hv
    by_cases hd : e.identity.isDelegate = true
    · rw [if_pos hd] at hv
      obtain ⟨e', he', hprops⟩ := ih rc pc v hv
      exact ⟨e', List.mem_cons_of_mem _ he', hprops⟩
    · have hd' : e.identity.isDelegate = false := by
        cases hb : e.identity.isDelegate
        · rfl
        · exact absurd hb hd
      rw [if_neg hd] at hv
      rcases List.mem_cons.mp hv with heq | hv'
      · subst heq
        refine ⟨e, List.mem_cons_self _ _, hd', rfl, rfl, rfl, rfl, ?_⟩
        unfold RootPtrSpec
        by_cases hroot : e.isRootChain = true
        · left
          refine ⟨hroot, ?_⟩
          simp [hroot]
        · have hroot' : e.isRootChain = false := by
            cases hb : e.isRootChain
            · rfl
            · exact absurd hb hroot
          cases hfind : addressToRootChainID cfg e.originalAddr with
          | some r =>
            right; left
            refine ⟨r, rfl, ?_⟩
            simp [hroot', hfind]
          | none =>
            right; right
            refine ⟨hroot', rfl, rc, ?_⟩
            simp [hroot', hfind]
      · obtain ⟨e', he', hprops⟩ := ih _ _ v hv'
        exact ⟨e', List.mem_cons_of_mem _ he', hprops⟩

theorem assignLoop_complete (cfg : AppConfig) :
    ∀ (L : List ExpandedEntry) (rc pc : Int → Nat),
      ∀ e ∈ L, e.identity.isDelegate = false →
        ∃ v ∈ (assignLoop cfg L rc pc).1,
          v.id = e.identity.id ∧ v.chainId = e.identity.chainId
            ∧ v.nodeType = e.identity.nodeType := by
  intro L
  induction L with
  | nil => intro rc pc e he; exact absurd he (by simp)
  | cons e' rest ih =>
    intro rc pc e he hd
    unfold assignLoop
    rcases List.mem_cons.mp he with rfl | he'
    · rw [if_neg (by rw [hd]; simp)]
      exact ⟨_, List.mem_cons_self _ _, rfl, rfl, rfl⟩
    · by_cases hd' : e'.identity.isDelegate = true
      · rw [if_pos hd']
        exact ih rc pc e he' hd
      · rw [if_neg hd']
        obtain ⟨v, hv, hprops⟩ := ih _ _ e he' hd
        exact ⟨v, List.mem_cons_of_mem _ hv, hprops⟩

theorem findLeastAssigned_mem (counts : Int → Nat) (l : List Int) (h : l ≠ []) :
    findLeastAssigned counts l ∈ l := by
  cases l with
  | nil => exact absurd rfl h
  | cons b t =>
    obtain ⟨hmem, -, -⟩ := foldl_least_spec counts t b
    unfold findLeastAssigned
    rcases hmem with h' | h'
    · simp [h']
    · exact List.mem_cons_of_mem b h'

/-- With unique chain ids and a passing committee validation, some root-chain
validator entry exists. -/
theorem rootChainNodeIDs_ne_nil (cfg : AppConfig)
    (hids : (cfg.chains.map (fun p => p.2.id)).Nodup)
    (hval : validateCommitteeAssignments cfg = .ok ()) :
    rootChainNodeIDs cfg ≠ [] := by
  obtain ⟨h0, -, -⟩ := validateCommitteeAssignments_ok_parts cfg hval
  obtain ⟨c, hc, hcroot, hV⟩ := rootChainValidatorTotal_pos cfg h0
  obtain ⟨s, d, hsd⟩ := allIdentities_mem_chain cfg c hc
  obtain ⟨y, hy, i, hyeq⟩ := generateChain_mem_validator c.2 s d hV
  have hymem : y ∈ allIdentities cfg := hsd y hy
  have hychain : y.chainId = c.2.id := by rw [hyeq]; rfl
  have hytype : y.nodeType = .validator := by rw [hyeq]; rfl
  have hyshape : y.nodeType = .fullnode ∨ y.committees ≠ [] :=
    allIdentities_fullnode_or_committees cfg y hymem
  have hbase : baseEntry (chainToRootChain cfg) y ∈ expandedEntries cfg :=
    expandAll_base_mem (chainToRootChain cfg) (allIdentities cfg)
      (allIdentities_fullnode_or_committees cfg) _ _ y hymem
  have hflag : (baseEntry (chainToRootChain cfg) y).isRootChain = true := by
    unfold baseEntry
    have : chainToRootChain cfg y.chainId = y.chainId := by
      rw [hychain, chainToRootChain_self cfg hids c hc, ← hcroot]
    simp [this]
  have := mem_rootChainNodeIDs_intro cfg (baseEntry (chainToRootChain cfg) y) hbase hflag
    (by simpa [baseEntry] using hytype)
  exact List.ne_nil_of_mem this

/-- C1 amended: every emitted validator entry has a non-null `rootChainNode`
naming a validator entry also present in `ids.json` whose `chainId` is a root
chain of the profile.  (The counterexample shows the named root chain need not
be the root chain of the referencing entry's own `chainId` when the profile
has several root chains.) -/
theorem emitted_rootChainNode_targets_root_validator (cfg : AppConfig)
    (hids : (cfg.chains.map (fun p => p.2.id)).Nodup)
    (hval : validateCommitteeAssignments cfg = .ok ()) :
    ∀ v ∈ emittedIdentities cfg, v.nodeType = .validator →
      ∃ r, v.rootChainNode = some r
        ∧ ∃ w ∈ emittedIdentities cfg,
            w.id = r ∧ w.nodeType = .validator
              ∧ chainToRootChain cfg w.chainId = w.chainId := by
  intro v hv hvtype
  unfold emittedIdentities at hv
  obtain ⟨e, he, hd, hid, hchain, htype, haddr, hspec⟩ := assignLoop_sound cfg _ _ _ v hv
  have hetype : e.identity.nodeType = .validator := by rw [← htype, hvtype]
  rcases hspec with ⟨hroot, hr⟩ | ⟨r, hfind, hr⟩ | ⟨hflag, hnone, rc, hr⟩
  · -- self-reference on a root chain
    refine ⟨e.identity.id, hr, v, hv, hid, hvtype, ?_⟩
    rw [hchain]
    exact ((expandedEntries_flag cfg e he).mp hroot)
  · -- the root-chain entry with the same address
    obtain ⟨e', he', hflag', haddr', hid'⟩ := addressToRootChainID_some_elim cfg _ r hfind
    obtain ⟨b, hb, hba, hbo, -, -, -⟩ := expandedEntries_shape cfg e he
    have haddr2 : e'.identity.address = e.identity.address := by
      rw [haddr', hbo, hba]
    have htypes := expandedEntries_addr_type cfg e' he' e he haddr2
    have he'type : e'.identity.nodeType = .validator := by rw [htypes.1, hetype]
    have he'del : e'.identity.isDelegate = false :=
      expandedEntries_validator_not_delegate cfg e' he' he'type
    obtain ⟨w, hw, hwid, hwchain, hwtype⟩ :=
      assignLoop_complete cfg (expandedEntries cfg) (preseedRootCounts cfg)
        (preseedPeerCounts cfg) e' he' he'del
    refine ⟨r, hr, w, hw, by rw [hwid, hid'], by rw [hwtype, he'type], ?_⟩
    rw [hwchain]
    exact (expandedEntries_flag cfg e' he').mp hflag'
  · -- load-balanced pick from the root-chain validators
    have hne := rootChainNodeIDs_ne_nil cfg hids hval
    have hmem := findLeastAssigned_mem rc (rootChainNodeIDs cfg) hne
    obtain ⟨e', he', hid', hflag', he'type⟩ :=
      mem_rootChainNodeIDs_elim cfg _ hmem
    have he'del : e'.identity.isDelegate = false :=
      expandedEntries_validator_not_delegate cfg e' he' he'type
    obtain ⟨w, hw, hwid, hwchain, hwtype⟩ :=
      assignLoop_complete cfg (expandedEntries cfg) (preseedRootCounts cfg)
        (preseedPeerCounts cfg) e' he' he'del
    refine ⟨_, hr, w, hw, by rw [hwid, hid'], by rw [hwtype, he'type], ?_⟩
    rw [hwchain]
    exact (expandedEntries_flag cfg e' he').mp hflag'

/-- A minimal valid single-root profile used by the witnesses. -/
def singleRootProfile : AppConfig :=
  { nodesCount := 2, chains := [("chain_1", chainC 1 1 2 0 0 [])] }

/-- Witness for C1 amended on the single-root profile. -/
theorem emitted_rootChainNode_targets_root_validator_witness :
    (singleRootProfile.chains.map (fun p => p.2.id)).Nodup
      ∧ validateCommitteeAssignments singleRootProfile = .ok ()
      ∧ ∀ v ∈ emittedIdentities singleRootProfile, v.nodeType = .validator →
          ∃ r, v.rootChainNode = some r
            ∧ ∃ w ∈ emittedIdentities singleRootProfile,
                w.id = r ∧ w.nodeType = .validator
                  ∧ chainToRootChain singleRootProfile w.chainId = w.chainId :=
  ⟨by decide, by rfl,
    emitted_rootChainNode_targets_root_validator singleRootProfile (by decide) (by rfl)⟩

/-- C6 amended: under a passing validation, unique nonzero chain ids, and a
two-level chain hierarchy (every chain referenced as a `rootChain` is itself a
root chain), the load-balanced peer candidate lists are never empty, so the
`peerIDs[0]` / `rootChainNodeIDs[0]` accesses are safe. -/
theorem validated_peer_candidates_nonempty (cfg : AppConfig)
    (hids : (cfg.chains.map (fun p => p.2.id)).Nodup)
    (hval : validateCommitteeAssignments cfg = .ok ())
    (hpos : ∀ p ∈ cfg.chains, p.2.id ≠ 0)
    (hroot : ∀ p ∈ cfg.chains, ∀ q ∈ cfg.chains,
      q.2.id = p.2.rootChain → q.2.id = q.2.rootChain) :
    rootChainNodeIDs cfg ≠ []
      ∧ ∀ e ∈ expandedEntries cfg, needsPeerPick cfg e →
          peerCandidates cfg e.identity.chainId ≠ [] := by
  obtain ⟨-, hcomm, hnest⟩ := validateCommitteeAssignments_ok_parts cfg hval
  refine ⟨rootChainNodeIDs_ne_nil cfg hids hval, ?_⟩
  intro e he hneed
  -- the entry sits on a nested chain of the profile
  have hflagF : e.isRootChain = false := by
    rcases hneed with ⟨-, ⟨-, h, -, -⟩ | ⟨-, h⟩⟩ <;> exact h
  obtain ⟨b, hb, -, -, -, -, -, hcid, hflag⟩ := expandedEntries_shape cfg e he
  have hnotroot : chainToRootChain cfg e.identity.chainId ≠ e.identity.chainId := by
    intro hc
    rw [hflag] at hflagF
    simp [hc] at hflagF
  obtain ⟨-, -, -, c, hc, hbchain, hbcomm⟩ := allIdentities_baseShape cfg b hb
  have hCchain : ∃ q ∈ cfg.chains, q.2.id = e.identity.chainId := by
    rcases hcid with h | h
    · rcases hbchain with h' | ⟨ca, hca, h'⟩
      · exact ⟨c, hc, by omega⟩
      · obtain ⟨⟨q, hq, hqid⟩, -, -⟩ := committeeCheckErr_none_facts cfg c (hcomm c hc) ca hca
        exact ⟨q, hq, by omega⟩
    · rcases hbcomm _ h with h' | ⟨ca, hca, h'⟩
      · exact ⟨c, hc, h'.symm⟩
      · obtain ⟨⟨q, hq, hqid⟩, -, -⟩ := committeeCheckErr_none_facts cfg c (hcomm c hc) ca hca
        exact ⟨q, hq, by omega⟩
  obtain ⟨q, hq, hqid⟩ := hCchain
  have hqnested : q.2.id ≠ q.2.rootChain := by
    intro hcontra
    apply hnotroot
    rw [← hqid, chainToRootChain_self cfg hids q hq, ← hcontra]
  obtain ⟨R, hRfind, ca₀, hca₀, hca₀id, hca₀sum⟩ :=
    nestedChainErr_none_facts cfg q (hnest q hq) hqnested
  have hR : R ∈ cfg.chains := List.mem_of_find?_eq_some hRfind
  have hRid : R.2.id = q.2.rootChain := by
    have := List.find?_some hRfind
    simpa using this
  have hRroot : R.2.id = R.2.rootChain := hroot q hq R hR hRid
  have hRne : R.2.id ≠ e.identity.chainId := by
    omega
  have hctrR : chainToRootChain cfg R.2.id = R.2.id := by
    rw [chainToRootChain_self cfg hids R hR, ← hRroot]
  -- a peer candidate exists: it comes from the first committee assignment of
  -- the root chain targeting this nested chain
  have hcand : nestedChainPeerNodes cfg e.identity.chainId ≠ []
      ∨ committeeOnlyPeerNodes cfg e.identity.chainId ≠ [] := by
    by_cases hv0 : ca₀.validatorCount = 0
    · -- repeated-identity case
      have hrep : 0 < ca₀.repeatedIdentityValidatorCount := by omega
      obtain ⟨-, hle, -⟩ := committeeCheckErr_none_facts cfg R (hcomm R hR) ca₀ hca₀
      have hV : 0 < R.2.validatorsCount := by omega
      obtain ⟨s, d, hsd⟩ := allIdentities_mem_chain cfg R hR
      obtain ⟨y, hy, i, hyeq⟩ := generateChain_mem_validator R.2 s d hV
      have hymem : y ∈ allIdentities cfg := hsd y hy
      have hCassign : e.identity.chainId ∈ validatorAssignments R.2 0 := by
        unfold validatorAssignments
        refine List.mem_filterMap.mpr ⟨ca₀, hca₀, ?_⟩
        rw [if_pos ⟨hrep, hV⟩, hca₀id, hqid]
      have hyec : y.expandingCommittees = some (validatorAssignments R.2 0) := by
        rw [hyeq]
        show mkExpanding (validatorAssignments R.2 0) = _
        unfold mkExpanding
        rw [if_neg (List.ne_nil_of_mem hCassign)]
      have hycontains : expandingContains y.expandingCommittees e.identity.chainId = true := by
        rw [hyec]
        unfold expandingContains
        simpa using hCassign
      obtain ⟨z, hz, hzchain, hzgen, hztype, hzdel, hzec, hzaddr, hzflag⟩ :=
        expandAll_exp_mem (chainToRootChain cfg) (allIdentities cfg)
          ((baseNodeCount cfg : Int) + 1) (lowestDelegatorID (allIdentities cfg) - 1)
          y hymem (by rw [hyeq]; simp [mkRegular]) R.2.id (validatorAssignments R.2 0)
          (by rw [hyeq]; rfl) e.identity.chainId hCassign hycontains
      have hz' : z ∈ expandedEntries cfg := hz
      have hzflagF : z.isRootChain = false := by
        rw [hzflag]
        have hne' : e.identity.chainId ≠ chainToRootChain cfg e.identity.chainId :=
          fun hcontra => hnotroot hcontra.symm
        simp [hne']
      have hbaseY : baseEntry (chainToRootChain cfg) y ∈ expandedEntries cfg :=
        expandAll_base_mem (chainToRootChain cfg) (allIdentities cfg)
          (allIdentities_fullnode_or_committees cfg) _ _ y hymem
      have hbaseYflag : (baseEntry (chainToRootChain cfg) y).isRootChain = true := by
        unfold baseEntry
        have hychain : y.chainId = R.2.id := by rw [hyeq]; rfl
        simp [hychain, hctrR]
      have hsome : (addressToRootChainID cfg z.originalAddr).isSome := by
        rw [hzaddr]
        exact addressToRootChainID_isSome_intro cfg _ hbaseY hbaseYflag
      left
      apply List.ne_nil_of_mem
      exact mem_nestedChainPeerNodes_intro cfg z hz'
        (by rw [hztype, hyeq]; rfl) (by rw [hzdel, hyeq]; rfl) hzflagF hsome
        e.identity.chainId hzchain
    · -- committee-only case
      have ht : e.identity.chainId ∈ committeeOnlyTargets (fun ca => ca.validatorCount) R.2 := by
        unfold committeeOnlyTargets
        refine List.mem_flatMap.mpr ⟨ca₀, hca₀, ?_⟩
        rw [List.mem_replicate]
        exact ⟨hv0, by rw [hca₀id, hqid]⟩
      obtain ⟨s, d, hsd⟩ := allIdentities_mem_chain cfg R hR
      obtain ⟨y, hy, i, hyeq⟩ := generateChain_mem_committeeOnly R.2 s d _ ht
      have hymem : y ∈ allIdentities cfg := hsd y hy
      have hbaseY : baseEntry (chainToRootChain cfg) y ∈ expandedEntries cfg :=
        expandAll_base_mem (chainToRootChain cfg) (allIdentities cfg)
          (allIdentities_fullnode_or_committees cfg) _ _ y hymem
      right
      apply List.ne_nil_of_mem
      refine mem_committeeOnlyPeerNodes_intro cfg _ hbaseY
        (by rw [baseEntry, hyeq]; rfl) (by rw [baseEntry, hyeq]; rfl) ?_
        (by rw [baseEntry, hyeq]; rfl) e.identity.chainId (by rw [baseEntry, hyeq]; rfl)
      show normGenesisChainId (baseEntry (chainToRootChain cfg) y).identity
          ≠ (baseEntry (chainToRootChain cfg) y).identity.chainId
      have hygen : y.genesisChainId = R.2.id := by rw [hyeq]; rfl
      have hychain : y.chainId = e.identity.chainId := by rw [hyeq]; rfl
      show normGenesisChainId y ≠ y.chainId
      unfold normGenesisChainId
      rw [hygen, if_neg (hpos R hR), hychain]
      exact hRne
  unfold peerCandidates
  rcases hcand with h | h
  · rw [if_neg h]
    exact h
  · by_cases hn : nestedChainPeerNodes cfg e.identity.chainId = []
    · rw [if_pos hn]
      exact h
    · rw [if_neg hn]
      exact hn

/-- Witness for C6 amended on the single-root profile. -/
theorem validated_peer_candidates_nonempty_witness :
    ((singleRootProfile.chains.map (fun p => p.2.id)).Nodup
        ∧ validateCommitteeAssignments singleRootProfile = .ok ()
        ∧ (∀ p ∈ singleRootProfile.chains, p.2.id ≠ 0)
        ∧ (∀ p ∈ singleRootProfile.chains, ∀ q ∈ singleRootProfile.chains,
            q.2.id = p.2.rootChain → q.2.id = q.2.rootChain))
      ∧ (rootChainNodeIDs singleRootProfile ≠ []
          ∧ ∀ e ∈ expandedEntries singleRootProfile, needsPeerPick singleRootProfile e →
              peerCandidates singleRootProfile e.identity.chainId ≠ []) :=
  ⟨⟨by decide, by rfl, by decide, by decide⟩,
    validated_peer_candidates_nonempty singleRootProfile (by decide) (by rfl)
      (by decide) (by decide)⟩
